import Mathlib

/-!
Verification of the readyq task tracker (src/readyq.py) against its
natural-language specification.

Shallow embedding conventions:
* Python strings are modelled as `List Char` (Lean `Char` = Unicode scalar
  values).  All strings that occur in valid task collections are sequences of
  scalar values, so this is faithful for the data the program stores.
* A task is the dict built by `cmd_new` (readyq.py lines 196-206): nine keys,
  always present, in insertion order.
* `json.dumps` (default options: `ensure_ascii=True`, separators `", "` and
  `": "`) is modelled by `encodeTask`; `json.loads` is modelled by
  `parseJsonText`, a whitespace-tolerant recursive-descent parser for the JSON
  grammar (including the `NaN`/`Infinity`/`-Infinity` constants CPython
  accepts).  One deviation, forced by Lean's `Char` type: a `\uXXXX` escape
  denoting a lone surrogate is rejected by `parseStringBody` instead of
  producing a lone-surrogate code unit as CPython does.  The encoder never
  emits lone surrogates, so this does not affect round-trip results.
* The parser's fuel only bounds nesting/element recursion; `2*length+2` is
  always enough because at most two recursive calls happen per consumed
  character, so fuel exhaustion never rejects an input the grammar accepts.
-/

namespace ReadyQ

/-- Python `str`, as a list of Unicode scalar values. -/
abbrev Str := List Char

/-- One entry of a task's `sessions` list (readyq.py lines 314-317). -/
structure Session where
  timestamp : Str
  log : Str
  deriving DecidableEq, Repr, Inhabited

/-- The task record created by `cmd_new` (readyq.py lines 196-206). -/
structure Task where
  id : Str
  title : Str
  description : Str
  status : Str
  created_at : Str
  updated_at : Str
  blocks : List Str
  blocked_by : List Str
  sessions : List Session
  deriving DecidableEq, Repr, Inhabited

/-- JSON values, as produced by `json.loads`.  Numbers keep their source
lexeme: the program never stores numbers in task records, so their numeric
value is irrelevant, and keeping the lexeme avoids modelling floats. -/
inductive Json where
  | null : Json
  | bool (b : Bool) : Json
  | num (raw : Str) : Json
  | str (s : Str) : Json
  | arr (elems : List Json) : Json
  | obj (members : List (Str × Json)) : Json
  deriving Repr

/-- Four lowercase hex digits, as CPython's `'\u%04x' % n`. -/
def toHex4 (n : Nat) : Str :=
  [Nat.digitChar (n / 4096 % 16), Nat.digitChar (n / 256 % 16),
   Nat.digitChar (n / 16 % 16), Nat.digitChar (n % 16)]

/-- `json.dumps` escaping of one character with `ensure_ascii=True`:
`"` and `\` are escaped, controls get their short escapes or `\u00xx`,
printable ASCII is literal, everything above `0x7e` becomes `\uXXXX`
(a surrogate pair for astral characters). -/
def escapeChar (c : Char) : Str :=
  if c = '"' then ['\\', '"']
  else if c = '\\' then ['\\', '\\']
  else if c = '\x08' then ['\\', 'b']
  else if c = '\t' then ['\\', 't']
  else if c = '\n' then ['\\', 'n']
  else if c = '\x0c' then ['\\', 'f']
  else if c = '\r' then ['\\', 'r']
  else if c.toNat < 0x20 then '\\' :: 'u' :: toHex4 c.toNat
  else if c.toNat < 0x7f then [c]
  else if c.toNat < 0x10000 then '\\' :: 'u' :: toHex4 c.toNat
  else
    ('\\' :: 'u' :: toHex4 (0xD800 + (c.toNat - 0x10000) / 0x400)) ++
    ('\\' :: 'u' :: toHex4 (0xDC00 + (c.toNat - 0x10000) % 0x400))

/-- A JSON string literal for `s`, as `json.dumps` renders it. -/
def encStr (s : Str) : Str := '"' :: ((s.map escapeChar).flatten ++ ['"'])

/-- Join pre-rendered items with a separator. -/
def sepJoin (sep : Str) : List Str → Str
  | [] => []
  | [x] => x
  | x :: y :: xs => x ++ sep ++ sepJoin sep (y :: xs)

/-- `json.dumps` default item separator `", "`. -/
def commaSp : Str := [',', ' ']

/-- One `"key": value` member; `v` is already rendered. -/
def encMember (key : Str) (v : Str) : Str := encStr key ++ [':', ' '] ++ v

/-- A JSON array from pre-rendered items. -/
def encArr (items : List Str) : Str := '[' :: (sepJoin commaSp items ++ [']'])

/-- A JSON object from pre-rendered members. -/
def encObj (members : List Str) : Str := '{' :: (sepJoin commaSp members ++ ['}'])

/-- `json.dumps` applied to one session dict (keys in insertion order). -/
def encSession (s : Session) : Str :=
  encObj [encMember "timestamp".data (encStr s.timestamp),
          encMember "log".data (encStr s.log)]

/-- `json.dumps(task)`: the dict's nine keys in `cmd_new`'s insertion order. -/
def encodeTask (t : Task) : Str :=
  encObj [encMember "id".data (encStr t.id),
          encMember "title".data (encStr t.title),
          encMember "description".data (encStr t.description),
          encMember "status".data (encStr t.status),
          encMember "created_at".data (encStr t.created_at),
          encMember "updated_at".data (encStr t.updated_at),
          encMember "blocks".data (encArr (t.blocks.map encStr)),
          encMember "blocked_by".data (encArr (t.blocked_by.map encStr)),
          encMember "sessions".data (encArr (t.sessions.map encSession))]

/-- The file content written by `db_save_tasks` (readyq.py lines 122-133):
`json.dumps(task) + '\n'` for each task, into a truncated file. -/
def db_save_tasks (ts : List Task) : Str :=
  (ts.map (fun t => encodeTask t ++ ['\n'])).flatten

/-- The JSON value `json.loads` recovers from an encoded session. -/
def sessionToJson (s : Session) : Json :=
  .obj [("timestamp".data, .str s.timestamp), ("log".data, .str s.log)]

/-- The JSON value `json.loads` recovers from an encoded task: the Python
dict that the rest of the program manipulates. -/
def taskToJson (t : Task) : Json :=
  .obj [("id".data, .str t.id),
        ("title".data, .str t.title),
        ("description".data, .str t.description),
        ("status".data, .str t.status),
        ("created_at".data, .str t.created_at),
        ("updated_at".data, .str t.updated_at),
        ("blocks".data, .arr (t.blocks.map Json.str)),
        ("blocked_by".data, .arr (t.blocked_by.map Json.str)),
        ("sessions".data, .arr (t.sessions.map sessionToJson))]

/-- Drop leading JSON whitespace (space, tab, newline, carriage return). -/
def skipWs : Str → Str
  | [] => []
  | c :: rest =>
    if c == ' ' || c == '\t' || c == '\n' || c == '\r' then skipWs rest
    else c :: rest

/-- Value of one hex digit, upper or lower case. -/
def hexVal (c : Char) : Option Nat :=
  if '0' ≤ c ∧ c ≤ '9' then some (c.toNat - '0'.toNat)
  else if 'a' ≤ c ∧ c ≤ 'f' then some (c.toNat - 'a'.toNat + 10)
  else if 'A' ≤ c ∧ c ≤ 'F' then some (c.toNat - 'A'.toNat + 10)
  else none

/-- Value of a four-hex-digit group. -/
def hex4 (a b c d : Char) : Option Nat := do
  let x ← hexVal a
  let y ← hexVal b
  let z ← hexVal c
  let w ← hexVal d
  pure (x * 4096 + y * 256 + z * 16 + w)

/-- Short-escape table of the JSON string grammar (`\u` is handled
separately). -/
def escCharOf (e : Char) : Option Char :=
  if e = '"' then some '"'
  else if e = '\\' then some '\\'
  else if e = '/' then some '/'
  else if e = 'b' then some '\x08'
  else if e = 'f' then some '\x0c'
  else if e = 'n' then some '\n'
  else if e = 'r' then some '\r'
  else if e = 't' then some '\t'
  else none

/-- Attach one decoded character to a string-body parse result. -/
def consResult (c2 : Char) : Option (Str × Str) → Option (Str × Str)
  | some (s, r) => some (c2 :: s, r)
  | none => none

/-- Low half of a surrogate-pair escape: combine and continue. -/
def uPairCont (rec : Str → Option (Str × Str)) (v : Nat) :
    Option Nat → Str → Option (Str × Str)
  | none, _ => none
  | some w, rest4 =>
    if 0xDC00 ≤ w ∧ w < 0xE000 then
      consResult (Char.ofNat (0x10000 + (v - 0xD800) * 0x400 + (w - 0xDC00)))
        (rec rest4)
    else none

/-- After a high-surrogate `\u` escape: the next six characters must be the
low half of the pair. -/
def uPairStep (rec : Str → Option (Str × Str)) (v : Nat) :
    Str → Option (Str × Str)
  | s1 :: s2 :: e1 :: e2 :: e3 :: e4 :: rest4 =>
    if s1 = '\\' ∧ s2 = 'u' then uPairCont rec v (hex4 e1 e2 e3 e4) rest4
    else none
  | _ => none

/-- Dispatch on the numeric value of a `\u` escape: high surrogates look
for their pair, lone low surrogates are rejected (see the header comment),
anything else is the decoded character. -/
def uCont (rec : Str → Option (Str × Str)) : Option Nat → Str → Option (Str × Str)
  | none, _ => none
  | some v, t =>
    if 0xD800 ≤ v ∧ v < 0xDC00 then uPairStep rec v t
    else if 0xDC00 ≤ v ∧ v < 0xE000 then none
    else consResult (Char.ofNat v) (rec t)

/-- A `\u` escape: four hex digits required. -/
def uStep (rec : Str → Option (Str × Str)) : Str → Option (Str × Str)
  | a :: b :: c2 :: d :: rest3 => uCont rec (hex4 a b c2 d) rest3
  | _ => none

/-- A non-`u` escape character. -/
def escCharCase (rec : Str → Option (Str × Str)) (rest2 : Str) :
    Option Char → Option (Str × Str)
  | none => none
  | some c2 => consResult c2 (rec rest2)

/-- A string escape after the backslash. -/
def escStep (rec : Str → Option (Str × Str)) : Str → Option (Str × Str)
  | [] => none
  | e :: rest2 =>
    if e = 'u' then uStep rec rest2
    else escCharCase rec rest2 (escCharOf e)

/-- One character of a JSON string literal body, in strict mode (raw
control characters rejected). -/
def psbStep (rec : Str → Option (Str × Str)) : Str → Option (Str × Str)
  | [] => none
  | c :: rest =>
    if c = '"' then some ([], rest)
    else if c = '\\' then escStep rec rest
    else if 0x20 ≤ c.toNat then consResult c (rec rest)
    else none

/-- Body of a JSON string literal after the opening quote, combining
surrogate-pair escapes as CPython's scanner does; returns the decoded string
and the input after the closing quote.  Each step consumes at least one
character, so the `length + 1` fuel callers pass never runs out. -/
def parseStringBody : Nat → Str → Option (Str × Str)
  | 0, _ => none
  | Nat.succ f, s => psbStep (parseStringBody f) s

/-- Take the longest run of leading decimal digits. -/
def takeDigits : Str → (Str × Str)
  | [] => ([], [])
  | c :: rest =>
    if c.isDigit then
      match takeDigits rest with
      | (ds, r) => (c :: ds, r)
    else ([], c :: rest)

/-- Integer part of the JSON number grammar: `0` or a nonzero digit followed
by digits. -/
def parseIntPart : Str → Option (Str × Str)
  | [] => none
  | c :: rest =>
    if c = '0' then some ([c], rest)
    else if c.isDigit then
      match takeDigits rest with
      | (ds, r) => some (c :: ds, r)
    else none

/-- Optional fraction part `.digits`; consumes nothing if absent. -/
def parseFracPart : Str → (Str × Str)
  | [] => ([], [])
  | c :: rest =>
    if c = '.' then
      match takeDigits rest with
      | ([], _) => ([], c :: rest)
      | (ds, r) => (c :: ds, r)
    else ([], c :: rest)

/-- Optional exponent part `[eE][+-]?digits`; consumes nothing if absent. -/
def parseExpPart : Str → (Str × Str)
  | e :: rest =>
    if e == 'e' || e == 'E' then
      match rest with
      | s :: rest2 =>
        if s == '+' || s == '-' then
          match takeDigits rest2 with
          | ([], _) => ([], e :: s :: rest2)
          | (ds, r) => (e :: s :: ds, r)
        else
          match takeDigits rest with
          | ([], _) => ([], e :: rest)
          | (ds, r) => (e :: ds, r)
      | [] => ([], [e])
    else ([], e :: rest)
  | [] => ([], [])

/-- Lex a JSON number, keeping its lexeme. -/
def parseNumber (s : Str) : Option (Json × Str) :=
  match s with
  | [] => none
  | c :: rest =>
    if c = '-' then
      match parseIntPart rest with
      | none => none
      | some (ip, r1) =>
        match parseFracPart r1 with
        | (fp, r2) =>
          match parseExpPart r2 with
          | (ep, r3) => some (.num (c :: (ip ++ fp ++ ep)), r3)
    else
      match parseIntPart (c :: rest) with
      | none => none
      | some (ip, r1) =>
        match parseFracPart r1 with
        | (fp, r2) =>
          match parseExpPart r2 with
          | (ep, r3) => some (.num (ip ++ fp ++ ep), r3)

/-- Wrap a parsed string body as a JSON value. -/
def strCont : Option (Str × Str) → Option (Json × Str)
  | some (str, rest) => some (.str str, rest)
  | none => none

/-- Wrap parsed elements as an array value. -/
def wrapArr : Option (List Json × Str) → Option (Json × Str)
  | some (es, rest) => some (.arr es, rest)
  | none => none

/-- After `[` and whitespace: empty array, or elements. -/
def arrCase (recE : Str → Option (List Json × Str)) : Str → Option (Json × Str)
  | [] => none
  | c2 :: r2 =>
    if c2 = ']' then some (.arr [], r2)
    else wrapArr (recE (c2 :: r2))

/-- After `[`: skip whitespace and dispatch. -/
def arrCont (recE : Str → Option (List Json × Str)) (r : Str) :
    Option (Json × Str) :=
  arrCase recE (skipWs r)

/-- Wrap parsed members as an object value. -/
def wrapObj : Option (List (Str × Json) × Str) → Option (Json × Str)
  | some (ms, rest) => some (.obj ms, rest)
  | none => none

/-- After `{` and whitespace: empty object, or members. -/
def objCase (recM : Str → Option (List (Str × Json) × Str)) :
    Str → Option (Json × Str)
  | [] => none
  | c2 :: r2 =>
    if c2 = '}' then some (.obj [], r2)
    else wrapObj (recM (c2 :: r2))

/-- After `{`: skip whitespace and dispatch. -/
def objCont (recM : Str → Option (List (Str × Json) × Str)) (r : Str) :
    Option (Json × Str) :=
  objCase recM (skipWs r)

/-- One JSON value after whitespace was skipped, with element/member
parsers supplied for arrays and objects. -/
def valueCase (recE : Str → Option (List Json × Str))
    (recM : Str → Option (List (Str × Json) × Str)) :
    Str → Option (Json × Str)
  | [] => none
  | c :: r =>
    if c = '"' then strCont (parseStringBody (r.length + 1) r)
    else if c = '[' then arrCase recE (skipWs r)
    else if c = '{' then objCase recM (skipWs r)
    else if c = 'n' then
      if "ull".data.isPrefixOf r then some (.null, r.drop 3) else none
    else if c = 't' then
      if "rue".data.isPrefixOf r then some (.bool true, r.drop 3) else none
    else if c = 'f' then
      if "alse".data.isPrefixOf r then some (.bool false, r.drop 4) else none
    else if c = 'N' then
      if "aN".data.isPrefixOf r then some (.num "NaN".data, r.drop 2) else none
    else if c = 'I' then
      if "nfinity".data.isPrefixOf r then some (.num "Infinity".data, r.drop 7)
      else none
    else if c = '-' then
      if "Infinity".data.isPrefixOf r then some (.num "-Infinity".data, r.drop 8)
      else parseNumber (c :: r)
    else parseNumber (c :: r)

/-- One JSON value: skip leading whitespace and dispatch on the first
character. -/
def valueStep (recE : Str → Option (List Json × Str))
    (recM : Str → Option (List (Str × Json) × Str)) (s : Str) :
    Option (Json × Str) :=
  valueCase recE recM (skipWs s)

/-- Prepend an element to a parsed element-list result. -/
def wrapCons (v : Json) : Option (List Json × Str) → Option (List Json × Str)
  | some (vs, rest) => some (v :: vs, rest)
  | none => none

/-- After one array element: comma and more elements, or the closing
bracket. -/
def elemsTail (recE : Str → Option (List Json × Str)) (v : Json) :
    Str → Option (List Json × Str)
  | [] => none
  | c :: r2 =>
    if c = ',' then wrapCons v (recE r2)
    else if c = ']' then some ([v], r2)
    else none

/-- Dispatch on the result of parsing one array element. -/
def elemsCase (recE : Str → Option (List Json × Str)) :
    Option (Json × Str) → Option (List Json × Str)
  | none => none
  | some (v, r) => elemsTail recE v (skipWs r)

/-- One array element then its tail. -/
def elemsStep (recV : Str → Option (Json × Str))
    (recE : Str → Option (List Json × Str)) (s : Str) :
    Option (List Json × Str) :=
  elemsCase recE (recV s)

/-- Prepend a member to a parsed member-list result. -/
def wrapMem (k : Str) (v : Json) :
    Option (List (Str × Json) × Str) → Option (List (Str × Json) × Str)
  | some (ms, rest) => some ((k, v) :: ms, rest)
  | none => none

/-- After one object member: comma and more members, or the closing
brace. -/
def memTail (recM : Str → Option (List (Str × Json) × Str)) (k : Str)
    (v : Json) : Str → Option (List (Str × Json) × Str)
  | [] => none
  | c5 :: r5 =>
    if c5 = ',' then wrapMem k v (recM r5)
    else if c5 = '}' then some ([(k, v)], r5)
    else none

/-- Dispatch on the result of parsing a member's value. -/
def valCont (recM : Str → Option (List (Str × Json) × Str)) (k : Str) :
    Option (Json × Str) → Option (List (Str × Json) × Str)
  | none => none
  | some (v, r4) => memTail recM k v (skipWs r4)

/-- After a member key and whitespace: a colon, then the value. -/
def colonCont (recV : Str → Option (Json × Str))
    (recM : Str → Option (List (Str × Json) × Str)) (k : Str) :
    Str → Option (List (Str × Json) × Str)
  | [] => none
  | c3 :: r3 => if c3 = ':' then valCont recM k (recV r3) else none

/-- Dispatch on the result of parsing a member key. -/
def keyCont (recV : Str → Option (Json × Str))
    (recM : Str → Option (List (Str × Json) × Str)) :
    Option (Str × Str) → Option (List (Str × Json) × Str)
  | none => none
  | some (k, r2) => colonCont recV recM k (skipWs r2)

/-- One object member, after whitespace was skipped. -/
def membersCase (recV : Str → Option (Json × Str))
    (recM : Str → Option (List (Str × Json) × Str)) :
    Str → Option (List (Str × Json) × Str)
  | [] => none
  | c :: r =>
    if c = '"' then keyCont recV recM (parseStringBody (r.length + 1) r)
    else none

/-- One object member: skip whitespace and dispatch. -/
def membersStep (recV : Str → Option (Json × Str))
    (recM : Str → Option (List (Str × Json) × Str)) (s : Str) :
    Option (List (Str × Json) × Str) :=
  membersCase recV recM (skipWs s)

mutual

/-- One JSON value (leading whitespace allowed), returning the remainder.
Fuel bounds recursion into arrays and objects; see the header comment. -/
def parseValue : Nat → Str → Option (Json × Str)
  | 0, _ => none
  | Nat.succ f, s => valueStep (parseElems f) (parseMembers f) s

/-- Comma-separated array elements up to the closing bracket. -/
def parseElems : Nat → Str → Option (List Json × Str)
  | 0, _ => none
  | Nat.succ f, s => elemsStep (parseValue f) (parseElems f) s

/-- Comma-separated object members up to the closing brace. -/
def parseMembers : Nat → Str → Option (List (Str × Json) × Str)
  | 0, _ => none
  | Nat.succ f, s => membersStep (parseValue f) (parseMembers f) s

end

/-- `json.loads`: one value with surrounding whitespace, nothing after it. -/
def parseJsonText (s : Str) : Option Json :=
  match parseValue (2 * s.length + 2) s with
  | some (v, rest) => if skipWs rest = [] then some v else none
  | none => none

/-- Split file content into lines as Python's file iteration does: each line
keeps its trailing newline; a last piece without a newline is still a line;
empty content yields no lines. -/
def linesOf : Str → List Str
  | [] => []
  | c :: rest =>
    if c = '\n' then ['\n'] :: linesOf rest
    else
      match linesOf rest with
      | [] => [[c]]
      | l :: ls => (c :: l) :: ls

/-- `db_load_tasks` on given file content (readyq.py lines 109-120): parse
each line with `json.loads`, skipping lines that fail to parse. -/
def loadContent (content : Str) : List Json :=
  (linesOf content).filterMap parseJsonText

/-- `db_load_tasks` (readyq.py lines 109-120): `none` models an absent
database file, which yields the empty collection. -/
def db_load_tasks (file : Option Str) : List Json :=
  match file with
  | none => []
  | some content => loadContent content

/-- The sequence of file states a concurrent unlocked reader can observe
while `db_save_tasks` runs: `open(DB_FILE, 'w')` truncates the file in
place, then each record is written in order — no temporary file and no
rename (readyq.py lines 130-133). -/
def dbSaveStates (ts : List Task) : List Str :=
  (List.range (ts.length + 1)).map (fun k => db_save_tasks (ts.take k))
/-- A database file drawn as a mix of encoded tasks and other (possibly
corrupt) lines, each line newline-terminated as `db_save_tasks` and
`db_append_task` write them. -/
def renderEntries (entries : List (Str ⊕ Task)) : Str :=
  (entries.map (fun e => match e with
    | Sum.inl bad => bad ++ ['\n']
    | Sum.inr t => encodeTask t ++ ['\n'])).flatten

/-- The tasks among the rendered entries, in order. -/
def goodTasks (entries : List (Str ⊕ Task)) : List Task :=
  entries.filterMap (fun e => match e with
    | Sum.inl _ => none
    | Sum.inr t => some t)

/-- A concrete task for witnesses and counterexamples. -/
def sampleTask : Task :=
  { id := "aaaa1111".data, title := "Sample".data, description := "".data,
    status := "open".data, created_at := "2024-01-01T00:00:00+00:00".data,
    updated_at := "2024-01-01T00:00:00+00:00".data, blocks := [],
    blocked_by := [], sessions := [] }

/-- A minimal task with a given id, for witnesses and counterexamples. -/
def mkTask (i : Str) : Task :=
  { id := i, title := i, description := [], status := "open".data,
    created_at := [], updated_at := [], blocks := [], blocked_by := [],
    sessions := [] }

/-- A task whose `blocks` list holds a duplicate entry. -/
def taskX : Task := { mkTask ['x'] with blocks := [['y'], ['y']] }

/-- The task the duplicate entries of `taskX` point at. -/
def taskY : Task := { mkTask ['y'] with blocked_by := [['x']] }

/-- One half of a two-task cycle: `a` is blocked by `b`. -/
def taskC : Task := { mkTask ['a'] with blocked_by := [['b']] }

/-- The other half of the cycle: `b` blocks `a`. -/
def taskD : Task := { mkTask ['b'] with blocks := [['a']] }

/-- Blocker / blocked pair used as concrete instance: `a` blocks `b`. -/
def taskA : Task := { mkTask ['a'] with blocks := [['b']] }

/-- See `taskA`: `b` is blocked by `a`. -/
def taskB : Task :=
  { mkTask ['b'] with status := "blocked".data, blocked_by := [['a']] }

/-- `text` parses as the JSON value `j` whenever at least `need` fuel is
available, leaving any remainder untouched. -/
def ValEnc (text : Str) (j : Json) (need : Nat) : Prop :=
  ∀ (F : Nat) (rest : Str), need ≤ F → parseValue F (text ++ rest) = some (j, rest)

/-- The rendered text starts with a non-whitespace character that is not a
closing bracket, so the array dispatcher hands it to the element parser. -/
def HeadOk (text : Str) : Prop :=
  ∃ c w, text = c :: w ∧ (c == ' ' || c == '\t' || c == '\n' || c == '\r') = false ∧
    ¬c = ']' ∧ ¬c = '}'

/-! ## Identifier resolution and the graph-mutating commands -/

/-- Result of `find_task` (readyq.py lines 147-164). -/
inductive FindResult where
  | found (t : Task) : FindResult
  | ambiguous (hits : List Task) : FindResult
  | notFound : FindResult
  deriving DecidableEq, Repr

/-- `find_task` (readyq.py lines 147-164): case-sensitive exact-prefix match
over `id` via `str.startswith`; an empty prefix is rejected up front. -/
def find_task (p : Str) (ts : List Task) : FindResult :=
  if p = [] then .notFound
  else
    match ts.filter (fun t => p.isPrefixOf t.id) with
    | [] => .notFound
    | [t] => .found t
    | ms => .ambiguous ms

/-- Position of the unique `find_task` match (the Python code holds the
matched dict itself; positions never change during one command, so the
index identifies it). -/
def findTaskIdx (p : Str) (ts : List Task) : Option Nat :=
  match find_task p ts with
  | .found _ => some (ts.findIdx (fun t => p.isPrefixOf t.id))
  | _ => none

/-- Position of `next((t for t in tasks if t['id'].startswith(p)), None)`,
the first-match resolution the edge loops use. -/
def firstMatchIdx (p : Str) (ts : List Task) : Option Nat :=
  let i := ts.findIdx (fun t => p.isPrefixOf t.id)
  if i < ts.length then some i else none

/-- Element access at a known-good index. -/
def getTask (ts : List Task) (i : Nat) : Task := ts.getD i default

/-- Replace the element at one position (the Python code mutates the dict
held at that position). -/
def modifyAt : List Task → Nat → (Task → Task) → List Task
  | [], _, _ => []
  | t :: ts, 0, f => f t :: ts
  | t :: ts, Nat.succ n, f => t :: modifyAt ts n f

/-- The auto-unblock step shared by edge removal, the done-cascade and
delete (readyq.py lines 388-394, 444-451, 517-523): drop `tid` from
`blocked_by` (first occurrence, as `list.remove`), stamp `updated_at`, and
flip a `blocked` task whose `blocked_by` emptied to `open`. -/
def unblockStep (tid now : Str) (u : Task) : Task :=
  if tid ∈ u.blocked_by then
    { u with blocked_by := u.blocked_by.erase tid, updated_at := now,
             status := if u.blocked_by.erase tid = [] ∧ u.status = "blocked".data
                       then "open".data else u.status }
  else u

/-- One iteration of the `--add-blocks` loop (readyq.py lines 326-347),
with `i` the position of the task being updated.  The `Bool` is this
iteration's contribution to the `updated` flag. -/
def addBlocksOne (i : Nat) (now : Str) (ts : List Task) (pfx : Str) :
    List Task × Bool :=
  match firstMatchIdx pfx ts with
  | none => (ts, false)
  | some j =>
    let bid := (getTask ts j).id
    let tid := (getTask ts i).id
    let ts1 := modifyAt ts i (fun t =>
      if bid ∈ t.blocks then t else { t with blocks := t.blocks ++ [bid] })
    let ts2 := modifyAt ts1 j (fun u =>
      if tid ∈ u.blocked_by then u
      else { u with blocked_by := u.blocked_by ++ [tid], updated_at := now,
                    status := if u.status = "done".data ∨ u.status = "blocked".data
                              then u.status else "blocked".data })
    (ts2, true)

/-- One iteration of the `--add-blocked-by` loop (readyq.py lines 353-374). -/
def addBlockedByOne (i : Nat) (now : Str) (ts : List Task) (pfx : Str) :
    List Task × Bool :=
  match firstMatchIdx pfx ts with
  | none => (ts, false)
  | some j =>
    let bid := (getTask ts j).id
    let tid := (getTask ts i).id
    let ts1 := modifyAt ts i (fun t =>
      if bid ∈ t.blocked_by then t
      else { t with blocked_by := t.blocked_by ++ [bid],
                    status := if t.status = "done".data ∨ t.status = "blocked".data
                              then t.status else "blocked".data })
    let ts2 := modifyAt ts1 j (fun u =>
      if tid ∈ u.blocks then u
      else { u with blocks := u.blocks ++ [tid], updated_at := now })
    (ts2, true)

/-- One iteration of the `--remove-blocks` loop (readyq.py lines 380-399). -/
def removeBlocksOne (i : Nat) (now : Str) (ts : List Task) (pfx : Str) :
    List Task × Bool :=
  match firstMatchIdx pfx ts with
  | none => (ts, false)
  | some j =>
    let bid := (getTask ts j).id
    let tid := (getTask ts i).id
    let ts1 := modifyAt ts i (fun t =>
      if bid ∈ t.blocks then { t with blocks := t.blocks.erase bid } else t)
    let ts2 := modifyAt ts1 j (unblockStep tid now)
    (ts2, true)

/-- One iteration of the `--remove-blocked-by` loop (readyq.py
lines 405-424). -/
def removeBlockedByOne (i : Nat) (now : Str) (ts : List Task) (pfx : Str) :
    List Task × Bool :=
  match firstMatchIdx pfx ts with
  | none => (ts, false)
  | some j =>
    let bid := (getTask ts j).id
    let tid := (getTask ts i).id
    let ts1 := modifyAt ts i (fun t =>
      if bid ∈ t.blocked_by then
        let bb := t.blocked_by.erase bid
        { t with blocked_by := bb,
                 status := if bb = [] ∧ t.status = "blocked".data
                           then "open".data else t.status }
      else t)
    let ts2 := modifyAt ts1 j (fun u =>
      if tid ∈ u.blocks then { u with blocks := u.blocks.erase tid, updated_at := now }
      else u)
    (ts2, true)

/-- Run one edge loop over its comma-separated prefixes, accumulating the
`updated` flag. -/
def foldPrefixes (single : Nat → Str → List Task → Str → List Task × Bool)
    (i : Nat) (now : Str) (ts : List Task) (pfxs : List Str) :
    List Task × Bool :=
  pfxs.foldl (fun acc p =>
    match single i now acc.1 p with
    | (ts2, b) => (ts2, acc.2 || b)) (ts, false)

/-- `cmd_update` invoked with exactly one edge option (readyq.py
lines 274-282 and 453-456 around the chosen loop): resolve the id prefix
(abort, leaving the stored collection unchanged, if it does not resolve),
stamp `updated_at`, run the loop, and persist only if `updated` was set. -/
def applyEdgeCmd (single : Nat → Str → List Task → Str → List Task × Bool)
    (p : Str) (pfxs : List Str) (now : Str) (ts : List Task) : List Task :=
  match findTaskIdx p ts with
  | none => ts
  | some i =>
    let ts0 := modifyAt ts i (fun t => { t with updated_at := now })
    match foldPrefixes single i now ts0 pfxs with
    | (ts1, updated) => if updated then ts1 else ts

/-- Position that the dict comprehension
`{t['id']: t for t in tasks}` associates to id `x`: the last task whose id
is `x` (later entries overwrite earlier ones). -/
def lastIdxOf (x : Str) (ts : List Task) : Option Nat :=
  (List.range ts.length).foldl
    (fun acc k => if (getTask ts k).id = x then some k else acc) none

/-- `cmd_update --status` (readyq.py lines 426-456): validate the status,
set it, and if it is `done` run the auto-unblock cascade over the task's
`blocks` list.  The lookup dict holds references, so each step of the
cascade sees the mutations of the previous ones. -/
def cmd_update_status (p : Str) (st : Str) (now : Str) (ts : List Task) :
    List Task :=
  match findTaskIdx p ts with
  | none => ts
  | some i =>
    if st = "open".data ∨ st = "in_progress".data ∨ st = "done".data ∨
        st = "blocked".data then
      let ts0 := modifyAt ts i (fun t => { t with updated_at := now, status := st })
      let tid := (getTask ts i).id
      if st = "done".data then
        ((getTask ts0 i).blocks).foldl (fun acc bid =>
          match lastIdxOf bid acc with
          | none => acc
          | some j => modifyAt acc j (unblockStep tid now)) ts0
      else ts0
    else ts

/-- `cmd_delete` (readyq.py lines 496-530): resolve the prefix; strip the
deleted id from every other task's `blocks` and `blocked_by` (first
occurrence, as `list.remove` does), auto-unblocking a task whose
`blocked_by` empties; finally drop every task carrying the deleted id. -/
def cmd_delete (p : Str) (now : Str) (ts : List Task) : List Task :=
  match find_task p ts with
  | .found target =>
    let tid := target.id
    let stripped := ts.map (fun u =>
      if u.id = tid then u
      else
        unblockStep tid now
          (if tid ∈ u.blocks
           then { u with blocks := u.blocks.erase tid, updated_at := now }
           else u))
    stripped.filter (fun u => u.id ≠ tid)
  | _ => ts

/-- Python `str.split(',')`: always at least one piece. -/
def splitComma : Str → List Str
  | [] => [[]]
  | c :: rest =>
    let ps := splitComma rest
    if c = ',' then [] :: ps
    else
      match ps with
      | [] => [[c]]
      | piece :: pr => (c :: piece) :: pr

/-- Whitespace removed by `str.strip()` (the ASCII part; CLI arguments in
this program's flows contain no exotic Unicode spaces). -/
def pySpace (c : Char) : Bool :=
  c == ' ' || c == '\t' || c == '\n' || c == '\r' || c == '\x0b' || c == '\x0c'

/-- Python `str.strip()`. -/
def stripStr (s : Str) : Str :=
  ((s.dropWhile pySpace).reverse.dropWhile pySpace).reverse

/-- `cmd_new` (readyq.py lines 193-235): build the fresh task; with a truthy
`--blocked-by` argument, set its status to `blocked` up front, then resolve
each comma-separated prefix against the existing tasks (first match), with
plain appends on both edge lists and a warning — no failure — for a prefix
that resolves to nothing; otherwise just append the open task. -/
def cmd_new (title description : Str) (blockedBy : Option Str) (id now : Str)
    (ts : List Task) : List Task :=
  let newTask : Task :=
    { id := id, title := title, description := description,
      status := "open".data, created_at := now, updated_at := now,
      blocks := [], blocked_by := [], sessions := [] }
  match blockedBy with
  | some s =>
    if s = [] then ts ++ [newTask]
    else
      let prefixes := (splitComma s).map stripStr
      let init : Task × List Task := ({ newTask with status := "blocked".data }, ts)
      let res := prefixes.foldl (fun (acc : Task × List Task) pfx =>
        match firstMatchIdx pfx acc.2 with
        | none => acc
        | some j =>
          let bid := (getTask acc.2 j).id
          ({ acc.1 with blocked_by := acc.1.blocked_by ++ [bid] },
           modifyAt acc.2 j (fun u =>
             { u with blocks := u.blocks ++ [id], updated_at := now }))) init
      res.2 ++ [res.1]
  | none => ts ++ [newTask]

/-- `cmd_ready`'s selection (readyq.py lines 244-272): status not `done`,
and every id in `blocked_by` resolves (through the last-wins lookup dict)
to a task with status `done`; a missing blocker keeps the task out. -/
def cmd_ready (ts : List Task) : List Task :=
  ts.filter (fun t =>
    !(t.status == "done".data) &&
    t.blocked_by.all (fun b =>
      match lastIdxOf b ts with
      | some j => (getTask ts j).status == "done".data
      | none => false))

/-- The dependency-edge commands of one session, for invariant statements:
the four `cmd_update` edge options and `cmd_delete`. -/
inductive EdgeOp where
  | addBlocks (p : Str) (pfxs : List Str) : EdgeOp
  | addBlockedBy (p : Str) (pfxs : List Str) : EdgeOp
  | removeBlocks (p : Str) (pfxs : List Str) : EdgeOp
  | removeBlockedBy (p : Str) (pfxs : List Str) : EdgeOp
  | delete (p : Str) : EdgeOp

/-- Run one edge command with its timestamp. -/
def applyEdgeOp (now : Str) (ts : List Task) : EdgeOp → List Task
  | .addBlocks p pfxs => applyEdgeCmd addBlocksOne p pfxs now ts
  | .addBlockedBy p pfxs => applyEdgeCmd addBlockedByOne p pfxs now ts
  | .removeBlocks p pfxs => applyEdgeCmd removeBlocksOne p pfxs now ts
  | .removeBlockedBy p pfxs => applyEdgeCmd removeBlockedByOne p pfxs now ts
  | .delete p => cmd_delete p now ts

/-- Run a sequence of edge commands, each with its own timestamp. -/
def runEdgeOps (ops : List (EdgeOp × Str)) (ts : List Task) : List Task :=
  ops.foldl (fun acc op => applyEdgeOp op.2 acc op.1) ts

/-! ## Structural invariants of a collection -/

/-- Edge symmetry (spec section 3): each `blocks` entry is mirrored by a
`blocked_by` entry and vice versa. -/
def EdgeSym (ts : List Task) : Prop :=
  ∀ a ∈ ts, ∀ b ∈ ts, (b.id ∈ a.blocks ↔ a.id ∈ b.blocked_by)

/-- Id uniqueness (spec section 3). -/
def NodupIds (ts : List Task) : Prop := (ts.map Task.id).Nodup

/-- `blocks`/`blocked_by` are duplicate-free ("ordered sets", spec
section 3). -/
def NodupEdges (ts : List Task) : Prop :=
  ∀ t ∈ ts, t.blocks.Nodup ∧ t.blocked_by.Nodup

instance : DecidablePred (fun ts => EdgeSym ts) := fun ts => by
  unfold EdgeSym; infer_instance

instance : DecidablePred (fun ts => NodupIds ts) := fun ts => by
  unfold NodupIds; infer_instance

instance : DecidablePred (fun ts => NodupEdges ts) := fun ts => by
  unfold NodupEdges; infer_instance

/-- The three structural invariants together: unique ids, duplicate-free
edge lists, and edge symmetry. -/
def WF (ts : List Task) : Prop := NodupIds ts ∧ NodupEdges ts ∧ EdgeSym ts

instance : DecidablePred (fun ts => NodupEdges ts) := fun ts => by
  unfold NodupEdges; infer_instance

/-! ## Round-trip lemmas for the line codec -/

theorem hexVal_digitChar : ∀ k : Nat, k < 16 → hexVal (Nat.digitChar k) = some k := by
  decide

theorem hex4_toHex4 (n : Nat) (h : n < 65536) :
    hex4 (Nat.digitChar (n / 4096 % 16)) (Nat.digitChar (n / 256 % 16))
      (Nat.digitChar (n / 16 % 16)) (Nat.digitChar (n % 16)) = some n := by
  rw [hex4]
  rw [hexVal_digitChar _ (by omega), hexVal_digitChar _ (by omega),
      hexVal_digitChar _ (by omega), hexVal_digitChar _ (by omega)]
  simp only [Option.bind_eq_bind, Option.some_bind, Option.pure_def]
  congr 1
  omega

theorem char_toNat_lt (c : Char) : c.toNat < 1114112 := by
  rcases c.valid with h | h
  · have h2 : c.toNat < 0xd800 := h
    omega
  · exact h.2

theorem char_not_surrogate (c : Char) (hc : 55296 ≤ c.toNat) : 57343 < c.toNat := by
  rcases c.valid with h | h
  · exact absurd hc (by simp [Char.toNat] at h ⊢; omega)
  · exact h.1

theorem psb_succ (f : Nat) (s : Str) :
    parseStringBody (Nat.succ f) s = psbStep (parseStringBody f) s := rfl

theorem psbF_close (f : Nat) (t : Str) :
    parseStringBody (Nat.succ f) ('"' :: t) = some ([], t) := rfl

theorem psbF_q (f : Nat) (t : Str) :
    parseStringBody (Nat.succ f) ('\\' :: '"' :: t) =
      consResult '"' (parseStringBody f t) := rfl

theorem psbF_bs (f : Nat) (t : Str) :
    parseStringBody (Nat.succ f) ('\\' :: '\\' :: t) =
      consResult '\\' (parseStringBody f t) := rfl

theorem psbF_b (f : Nat) (t : Str) :
    parseStringBody (Nat.succ f) ('\\' :: 'b' :: t) =
      consResult '\x08' (parseStringBody f t) := rfl

theorem psbF_t (f : Nat) (t : Str) :
    parseStringBody (Nat.succ f) ('\\' :: 't' :: t) =
      consResult '\t' (parseStringBody f t) := rfl

theorem psbF_n (f : Nat) (t : Str) :
    parseStringBody (Nat.succ f) ('\\' :: 'n' :: t) =
      consResult '\n' (parseStringBody f t) := rfl

theorem psbF_f (f : Nat) (t : Str) :
    parseStringBody (Nat.succ f) ('\\' :: 'f' :: t) =
      consResult '\x0c' (parseStringBody f t) := rfl

theorem psbF_r (f : Nat) (t : Str) :
    parseStringBody (Nat.succ f) ('\\' :: 'r' :: t) =
      consResult '\r' (parseStringBody f t) := rfl

theorem psbF_u (f : Nat) (a b c2 d : Char) (t : Str) :
    parseStringBody (Nat.succ f) ('\\' :: 'u' :: a :: b :: c2 :: d :: t) =
      uCont (parseStringBody f) (hex4 a b c2 d) t := rfl

theorem psbF_lit (f : Nat) (c : Char) (t : Str) (h1 : ¬c = '"') (h2 : ¬c = '\\')
    (h3 : 0x20 ≤ c.toNat) :
    parseStringBody (Nat.succ f) (c :: t) = consResult c (parseStringBody f t) := by
  rw [psb_succ, psbStep, if_neg h1, if_neg h2, if_pos h3]

theorem consResult_some (c2 : Char) (s : Str) (r : Str) :
    consResult c2 (some (s, r)) = some (c2 :: s, r) := rfl

set_option maxHeartbeats 1600000 in
theorem psb_enc (s : Str) : ∀ (F : Nat) (rest : Str), s.length + 1 ≤ F →
    parseStringBody F ((s.map escapeChar).flatten ++ '"' :: rest) = some (s, rest) := by
  induction s with
  | nil =>
    intro F rest hF
    obtain ⟨f, rfl⟩ : ∃ f, F = f + 1 := ⟨F - 1, by omega⟩
    simp only [List.map_nil, List.flatten_nil, List.nil_append]
    exact psbF_close f rest
  | cons c s ih =>
    intro F rest hF
    obtain ⟨f, rfl⟩ : ∃ f, F = f + 1 := ⟨F - 1, by omega⟩
    have hf : s.length + 1 ≤ f := by
      simp only [List.length_cons] at hF; omega
    have koch := ih f rest hf
    simp only [List.map_cons, List.flatten_cons, List.append_assoc]
    rw [escapeChar]
    split_ifs with h1 h2 h3 h4 h5 h6 h7 h8 h9 h10
    · subst h1
      rw [List.cons_append, List.cons_append, List.nil_append, psbF_q, koch, consResult_some]
    · subst h2
      rw [List.cons_append, List.cons_append, List.nil_append, psbF_bs, koch, consResult_some]
    · subst h3
      rw [List.cons_append, List.cons_append, List.nil_append, psbF_b, koch, consResult_some]
    · subst h4
      rw [List.cons_append, List.cons_append, List.nil_append, psbF_t, koch, consResult_some]
    · subst h5
      rw [List.cons_append, List.cons_append, List.nil_append, psbF_n, koch, consResult_some]
    · subst h6
      rw [List.cons_append, List.cons_append, List.nil_append, psbF_f, koch, consResult_some]
    · subst h7
      rw [List.cons_append, List.cons_append, List.nil_append, psbF_r, koch, consResult_some]
    · -- other control characters: a `\u00xx` escape
      rw [toHex4]
      simp only [List.cons_append, List.nil_append]
      rw [psbF_u, hex4_toHex4 c.toNat (by omega), uCont]
      rw [if_neg (by omega), if_neg (by omega), koch, consResult_some, Char.ofNat_toNat]
    · -- printable ASCII other than `"` and `\`: emitted literally
      rw [List.singleton_append, psbF_lit f c _ h1 h2 (by omega), koch, consResult_some]
    · -- BMP beyond ASCII: `\uXXXX`, never a surrogate for a valid Char
      have hns : c.toNat < 55296 ∨ 57343 < c.toNat := by
        by_cases hge : 55296 ≤ c.toNat
        · exact Or.inr (char_not_surrogate c hge)
        · exact Or.inl (by omega)
      rw [toHex4]
      simp only [List.cons_append, List.nil_append]
      rw [psbF_u, hex4_toHex4 c.toNat (by omega), uCont]
      rw [if_neg (by omega), if_neg (by omega), koch, consResult_some, Char.ofNat_toNat]
    · -- astral character: a surrogate pair
      have hlt := char_toNat_lt c
      have hge : 65536 ≤ c.toNat := by omega
      rw [toHex4, toHex4]
      simp only [List.cons_append, List.nil_append, List.append_assoc]
      rw [psbF_u, hex4_toHex4 _ (by omega), uCont, if_pos (by omega)]
      rw [uPairStep, if_pos ⟨rfl, rfl⟩, hex4_toHex4 _ (by omega), uPairCont,
          if_pos (by omega), koch, consResult_some]
      have harith : 65536 + (55296 + (c.toNat - 65536) / 1024 - 55296) * 1024 +
          (56320 + (c.toNat - 65536) % 1024 - 56320) = c.toNat := by omega
      rw [harith, Char.ofNat_toNat]

theorem pv_succ (f : Nat) (s : Str) :
    parseValue (Nat.succ f) s = valueStep (parseElems f) (parseMembers f) s := rfl

theorem pe_succ (f : Nat) (s : Str) :
    parseElems (Nat.succ f) s = elemsStep (parseValue f) (parseElems f) s := rfl

theorem pm_succ (f : Nat) (s : Str) :
    parseMembers (Nat.succ f) s = membersStep (parseValue f) (parseMembers f) s := rfl

theorem skipWs_sp (x : Str) : skipWs (' ' :: x) = skipWs x := by
  rw [skipWs, if_pos (by decide)]

theorem skipWs_nonws (c : Char) (x : Str)
    (h : (c == ' ' || c == '\t' || c == '\n' || c == '\r') = false) :
    skipWs (c :: x) = c :: x := by
  rw [skipWs, if_neg (by simp [h])]

set_option maxHeartbeats 1600000 in
theorem escapeChar_length_pos (c : Char) : 1 ≤ (escapeChar c).length := by
  rw [escapeChar]
  split_ifs <;> simp [toHex4]

theorem length_le_flatten_escape (s : Str) :
    s.length ≤ ((s.map escapeChar).flatten).length := by
  induction s with
  | nil => simp
  | cons c s ih =>
    simp only [List.map_cons, List.flatten_cons, List.length_append, List.length_cons]
    have := escapeChar_length_pos c
    omega

theorem encStr_append (s rest : Str) :
    encStr s ++ rest = '"' :: ((s.map escapeChar).flatten ++ '"' :: rest) := by
  rw [encStr]
  simp

theorem pv_encStr (F : Nat) (s rest : Str) (hF : 1 ≤ F) :
    parseValue F (encStr s ++ rest) = some (.str s, rest) := by
  obtain ⟨f, rfl⟩ : ∃ f, F = f + 1 := ⟨F - 1, by omega⟩
  rw [encStr_append, pv_succ, valueStep, skipWs_nonws _ _ (by decide), valueCase, if_pos rfl]
  rw [psb_enc s _ rest (by
    have := length_le_flatten_escape s
    simp only [List.length_append, List.length_cons]
    omega)]
  rfl

theorem pv_ws (F : Nat) (x : Str) : parseValue F (' ' :: x) = parseValue F x := by
  cases F with
  | zero => rfl
  | succ f => rw [pv_succ, pv_succ, valueStep, valueStep, skipWs_sp]

theorem pe_ws (F : Nat) (x : Str) : parseElems F (' ' :: x) = parseElems F x := by
  cases F with
  | zero => rfl
  | succ f => rw [pe_succ, pe_succ, elemsStep, elemsStep, pv_ws]

theorem pm_ws (F : Nat) (x : Str) : parseMembers F (' ' :: x) = parseMembers F x := by
  cases F with
  | zero => rfl
  | succ f => rw [pm_succ, pm_succ, membersStep, membersStep, skipWs_sp]

theorem valEnc_mono (t : Str) (j : Json) (n m : Nat) (h : n ≤ m)
    (hv : ValEnc t j n) : ValEnc t j m :=
  fun F rest hF => hv F rest (by omega)

theorem valEnc_str (s : Str) : ValEnc (encStr s) (.str s) 1 :=
  fun F rest hF => pv_encStr F s rest hF

theorem pe_chain (es : List (Str × Json)) (N : Nat)
    (hval : ∀ e ∈ es, ValEnc e.1 e.2 N) :
    es ≠ [] → ∀ (F : Nat) (rest : Str), es.length + N ≤ F →
      parseElems F (sepJoin commaSp (es.map Prod.fst) ++ ']' :: rest) =
        some (es.map Prod.snd, rest) := by
  induction es with
  | nil => intro h; exact absurd rfl h
  | cons e es ih =>
    intro _ F rest hF
    have hpos : 1 ≤ F := by simp only [List.length_cons] at hF; omega
    obtain ⟨f, rfl⟩ : ∃ f, F = f + 1 := ⟨F - 1, by omega⟩
    have he := hval e (List.mem_cons_self e es)
    cases es with
    | nil =>
      have hN : N ≤ f := by
        simp only [List.length_cons, List.length_nil] at hF; omega
      simp only [List.map_cons, List.map_nil, sepJoin]
      rw [pe_succ, elemsStep, he f (']' :: rest) hN, elemsCase,
          skipWs_nonws _ _ (by decide), elemsTail, if_neg (by decide), if_pos rfl]
    | cons e2 es2 =>
      simp only [List.map_cons, sepJoin]
      have hassoc :
          (e.1 ++ commaSp ++ sepJoin commaSp (e2.1 :: es2.map Prod.fst)) ++
            ']' :: rest =
          e.1 ++ (',' :: ' ' ::
            (sepJoin commaSp (e2.1 :: es2.map Prod.fst) ++ ']' :: rest)) := by
        simp [commaSp]
      have hN : N ≤ f := by
        simp only [List.length_cons] at hF; omega
      rw [hassoc, pe_succ, elemsStep, he f _ hN, elemsCase,
          skipWs_nonws _ _ (by decide), elemsTail, if_pos rfl, pe_ws]
      have ihh := ih (fun x hx => hval x (List.mem_cons_of_mem e hx))
        (by simp) f rest (by
          simp only [List.length_cons, List.length_nil] at hF ⊢; omega)
      simp only [List.map_cons] at ihh
      rw [ihh, wrapCons]

theorem pv_encArr (es : List (Str × Json)) (N : Nat)
    (hval : ∀ e ∈ es, ValEnc e.1 e.2 N)
    (hhead : ∀ e ∈ es, HeadOk e.1) :
    ValEnc (encArr (es.map Prod.fst)) (.arr (es.map Prod.snd))
      (es.length + N + 2) := by
  intro F rest hF
  obtain ⟨f, rfl⟩ : ∃ f, F = f + 1 := ⟨F - 1, by omega⟩
  rw [encArr]
  have hassoc : ('[' :: (sepJoin commaSp (es.map Prod.fst) ++ [']'])) ++ rest =
      '[' :: (sepJoin commaSp (es.map Prod.fst) ++ ']' :: rest) := by simp
  rw [hassoc, pv_succ, valueStep, skipWs_nonws _ _ (by decide), valueCase,
      if_neg (by decide), if_pos rfl]
  cases es with
  | nil =>
    simp only [List.map_nil, sepJoin, List.nil_append]
    rw [skipWs_nonws _ _ (by decide), arrCase, if_pos rfl]
  | cons e es2 =>
    obtain ⟨c, w, hw, hcws, hcbr, _⟩ := hhead e (List.mem_cons_self e es2)
    have hhd : ∃ w2, sepJoin commaSp ((e :: es2).map Prod.fst) ++ ']' :: rest =
        c :: w2 := by
      cases es2 with
      | nil => exact ⟨w ++ ']' :: rest, by simp [sepJoin, hw]⟩
      | cons e2 es3 =>
        refine ⟨w ++ commaSp ++ sepJoin commaSp (e2.1 :: es3.map Prod.fst) ++
          ']' :: rest, ?_⟩
        simp [sepJoin, hw]
    obtain ⟨w2, hw2⟩ := hhd
    rw [hw2, skipWs_nonws _ _ hcws, arrCase, if_neg hcbr, ← hw2]
    rw [pe_chain (e :: es2) N hval (by simp) f rest (by
      simp only [List.length_cons] at hF ⊢; omega)]
    rw [wrapArr]

theorem pm_chain (ms : List (Str × Str × Json)) (N : Nat)
    (hval : ∀ m ∈ ms, ValEnc m.2.1 m.2.2 N) :
    ms ≠ [] → ∀ (F : Nat) (rest : Str), ms.length + N + 1 ≤ F →
      parseMembers F
          (sepJoin commaSp (ms.map (fun m => encMember m.1 m.2.1)) ++ '}' :: rest) =
        some (ms.map (fun m => (m.1, m.2.2)), rest) := by
  induction ms with
  | nil => intro h; exact absurd rfl h
  | cons m ms ih =>
    intro _ F rest hF
    obtain ⟨f, rfl⟩ : ∃ f, F = f + 1 := ⟨F - 1, by omega⟩
    have hm := hval m (List.mem_cons_self m ms)
    have hkey : ∀ (tail : Str),
        parseMembers (f + 1) (encMember m.1 m.2.1 ++ tail) =
          valCont (parseMembers f) m.1 (parseValue f (' ' :: (m.2.1 ++ tail))) := by
      intro tail
      rw [encMember]
      have h1 : (encStr m.1 ++ [':', ' '] ++ m.2.1) ++ tail =
          encStr m.1 ++ (':' :: ' ' :: (m.2.1 ++ tail)) := by simp
      rw [h1, encStr_append, pm_succ, membersStep, skipWs_nonws _ _ (by decide),
          membersCase, if_pos rfl]
      rw [psb_enc m.1 _ _ (by
        have := length_le_flatten_escape m.1
        simp only [List.length_append, List.length_cons]
        omega)]
      rw [keyCont, skipWs_nonws _ _ (by decide), colonCont, if_pos rfl]
    cases ms with
    | nil =>
      have hN : N ≤ f := by
        simp only [List.length_cons, List.length_nil] at hF; omega
      simp only [List.map_cons, List.map_nil, sepJoin]
      rw [hkey, pv_ws, hm f _ hN, valCont, skipWs_nonws _ _ (by decide),
          memTail, if_neg (by decide), if_pos rfl]
    | cons m2 ms2 =>
      simp only [List.map_cons, sepJoin]
      have hassoc :
          (encMember m.1 m.2.1 ++ commaSp ++
            sepJoin commaSp (encMember m2.1 m2.2.1 ::
              ms2.map (fun m => encMember m.1 m.2.1))) ++ '}' :: rest =
          encMember m.1 m.2.1 ++ (',' :: ' ' ::
            (sepJoin commaSp (encMember m2.1 m2.2.1 ::
              ms2.map (fun m => encMember m.1 m.2.1)) ++ '}' :: rest)) := by
        simp [commaSp]
      have hN : N ≤ f := by
        simp only [List.length_cons] at hF; omega
      rw [hassoc, hkey, pv_ws, hm f _ hN, valCont,
          skipWs_nonws _ _ (by decide), memTail, if_pos rfl, pm_ws]
      have ihh := ih (fun x hx => hval x (List.mem_cons_of_mem m hx))
        (by simp) f rest (by
          simp only [List.length_cons, List.length_nil] at hF ⊢; omega)
      simp only [List.map_cons] at ihh
      rw [ihh, wrapMem]

theorem pv_encObj (ms : List (Str × Str × Json)) (N : Nat)
    (hval : ∀ m ∈ ms, ValEnc m.2.1 m.2.2 N) :
    ValEnc (encObj (ms.map (fun m => encMember m.1 m.2.1)))
      (.obj (ms.map (fun m => (m.1, m.2.2)))) (ms.length + N + 2) := by
  intro F rest hF
  obtain ⟨f, rfl⟩ : ∃ f, F = f + 1 := ⟨F - 1, by omega⟩
  rw [encObj]
  have hassoc :
      ('{' :: (sepJoin commaSp (ms.map (fun m => encMember m.1 m.2.1)) ++ ['}'])) ++
        rest =
      '{' :: (sepJoin commaSp (ms.map (fun m => encMember m.1 m.2.1)) ++
        '}' :: rest) := by simp
  rw [hassoc, pv_succ, valueStep, skipWs_nonws _ _ (by decide), valueCase,
      if_neg (by decide), if_neg (by decide), if_pos rfl]
  cases ms with
  | nil =>
    simp only [List.map_nil, sepJoin, List.nil_append]
    rw [skipWs_nonws _ _ (by decide), objCase, if_pos rfl]
  | cons m ms2 =>
    have hhd : ∃ w2, sepJoin commaSp ((m :: ms2).map (fun m => encMember m.1 m.2.1)) ++
        '}' :: rest = '"' :: w2 := by
      cases ms2 with
      | nil =>
        simp only [List.map_cons, List.map_nil, sepJoin, encMember, encStr,
          List.append_assoc, List.cons_append, List.nil_append]
        exact ⟨_, rfl⟩
      | cons m2 ms3 =>
        simp only [List.map_cons, sepJoin, encMember, encStr,
          List.append_assoc, List.cons_append, List.nil_append]
        exact ⟨_, rfl⟩
    obtain ⟨w2, hw2⟩ := hhd
    rw [hw2, skipWs_nonws _ _ (by decide), objCase, if_neg (by decide), ← hw2]
    rw [pm_chain (m :: ms2) N hval (by simp) f rest (by
      simp only [List.length_cons] at hF ⊢; omega)]
    rw [wrapObj]

theorem headOk_encStr (s : Str) : HeadOk (encStr s) := by
  unfold HeadOk
  rw [encStr]
  exact ⟨_, _, rfl, by decide, by decide, by decide⟩

theorem headOk_encSession (x : Session) : HeadOk (encSession x) := by
  unfold HeadOk
  rw [encSession, encObj]
  exact ⟨_, _, rfl, by decide, by decide, by decide⟩

theorem valEnc_session (x : Session) : ValEnc (encSession x) (sessionToJson x) 5 := by
  have h := pv_encObj
    [("timestamp".data, encStr x.timestamp, Json.str x.timestamp),
     ("log".data, encStr x.log, Json.str x.log)] 1 (by
      intro m hm
      simp only [List.mem_cons, List.not_mem_nil, or_false] at hm
      rcases hm with rfl | rfl
      · exact valEnc_str x.timestamp
      · exact valEnc_str x.log)
  simpa [encSession, sessionToJson] using h

theorem valEnc_strArr (l : List Str) :
    ValEnc (encArr (l.map encStr)) (.arr (l.map Json.str)) (l.length + 3) := by
  have h := pv_encArr (l.map (fun b => (encStr b, Json.str b))) 1 (by
      intro e he
      simp only [List.mem_map] at he
      obtain ⟨b, _, rfl⟩ := he
      exact valEnc_str b) (by
      intro e he
      simp only [List.mem_map] at he
      obtain ⟨b, _, rfl⟩ := he
      exact headOk_encStr b)
  simpa [List.map_map, Function.comp_def] using h

theorem valEnc_sessArr (l : List Session) :
    ValEnc (encArr (l.map encSession)) (.arr (l.map sessionToJson))
      (l.length + 7) := by
  have h := pv_encArr (l.map (fun x => (encSession x, sessionToJson x))) 5 (by
      intro e he
      simp only [List.mem_map] at he
      obtain ⟨x, _, rfl⟩ := he
      exact valEnc_session x) (by
      intro e he
      simp only [List.mem_map] at he
      obtain ⟨x, _, rfl⟩ := he
      exact headOk_encSession x)
  simpa [List.map_map, Function.comp_def] using h

theorem valEnc_task (t : Task) :
    ValEnc (encodeTask t) (taskToJson t)
      (t.blocks.length + t.blocked_by.length + t.sessions.length + 18) := by
  have h := pv_encObj
    [("id".data, encStr t.id, Json.str t.id),
     ("title".data, encStr t.title, Json.str t.title),
     ("description".data, encStr t.description, Json.str t.description),
     ("status".data, encStr t.status, Json.str t.status),
     ("created_at".data, encStr t.created_at, Json.str t.created_at),
     ("updated_at".data, encStr t.updated_at, Json.str t.updated_at),
     ("blocks".data, encArr (t.blocks.map encStr), .arr (t.blocks.map Json.str)),
     ("blocked_by".data, encArr (t.blocked_by.map encStr),
       .arr (t.blocked_by.map Json.str)),
     ("sessions".data, encArr (t.sessions.map encSession),
       .arr (t.sessions.map sessionToJson))]
    (t.blocks.length + t.blocked_by.length + t.sessions.length + 7) (by
      intro m hm
      simp only [List.mem_cons, List.not_mem_nil, or_false] at hm
      rcases hm with rfl | rfl | rfl | rfl | rfl | rfl | rfl | rfl | rfl
      · exact valEnc_mono _ _ _ _ (by omega) (valEnc_str _)
      · exact valEnc_mono _ _ _ _ (by omega) (valEnc_str _)
      · exact valEnc_mono _ _ _ _ (by omega) (valEnc_str _)
      · exact valEnc_mono _ _ _ _ (by omega) (valEnc_str _)
      · exact valEnc_mono _ _ _ _ (by omega) (valEnc_str _)
      · exact valEnc_mono _ _ _ _ (by omega) (valEnc_str _)
      · exact valEnc_mono _ _ _ _ (by omega) (valEnc_strArr t.blocks)
      · exact valEnc_mono _ _ _ _ (by omega) (valEnc_strArr t.blocked_by)
      · exact valEnc_mono _ _ _ _ (by omega) (valEnc_sessArr t.sessions))
  have hlen : ([("id".data, encStr t.id, Json.str t.id)].length + 8) = 9 := by simp
  simp only [List.map_cons, List.map_nil, List.length_cons, List.length_nil] at h
  have harith : 0 + 1 + 1 + 1 + 1 + 1 + 1 + 1 + 1 + 1 +
      (t.blocks.length + t.blocked_by.length + t.sessions.length + 7) + 2 =
      t.blocks.length + t.blocked_by.length + t.sessions.length + 18 := by omega
  rw [harith] at h
  exact h

theorem encStr_length_ge (s : Str) : 2 ≤ (encStr s).length := by
  rw [encStr]
  simp

theorem sepJoin_length_ge :
    ∀ ms : List Str, (ms.map List.length).sum ≤ (sepJoin commaSp ms).length := by
  intro ms
  induction ms with
  | nil => simp [sepJoin]
  | cons x xs ih =>
    cases xs with
    | nil => simp [sepJoin]
    | cons y ys =>
      simp only [sepJoin, List.map_cons, List.sum_cons, List.length_append]
      simp only [List.map_cons, List.sum_cons] at ih
      omega

theorem item_sum_ge (l : List Str) (h : ∀ x ∈ l, 2 ≤ x.length) :
    2 * l.length ≤ (l.map List.length).sum := by
  induction l with
  | nil => simp
  | cons x xs ih =>
    simp only [List.map_cons, List.sum_cons, List.length_cons]
    have h1 := h x (List.mem_cons_self x xs)
    have h2 := ih (fun y hy => h y (List.mem_cons_of_mem x hy))
    omega

theorem encArr_length_ge (items : List Str) (h : ∀ x ∈ items, 2 ≤ x.length) :
    2 + 2 * items.length ≤ (encArr items).length := by
  rw [encArr]
  have h1 := sepJoin_length_ge items
  have h2 := item_sum_ge items h
  simp only [List.length_cons, List.length_append, List.length_cons,
    List.length_nil]
  omega

theorem encSession_length_ge (x : Session) : 2 ≤ (encSession x).length := by
  rw [encSession, encObj]
  simp

theorem encMember_length_ge (k v : Str) : v.length ≤ (encMember k v).length := by
  rw [encMember]
  simp
  omega

theorem encodeTask_length_ge (t : Task) :
    t.blocks.length + t.blocked_by.length + t.sessions.length + 8 ≤
      (encodeTask t).length := by
  rw [encodeTask, encObj]
  have hsep := sepJoin_length_ge
    [encMember "id".data (encStr t.id),
     encMember "title".data (encStr t.title),
     encMember "description".data (encStr t.description),
     encMember "status".data (encStr t.status),
     encMember "created_at".data (encStr t.created_at),
     encMember "updated_at".data (encStr t.updated_at),
     encMember "blocks".data (encArr (t.blocks.map encStr)),
     encMember "blocked_by".data (encArr (t.blocked_by.map encStr)),
     encMember "sessions".data (encArr (t.sessions.map encSession))]
  simp only [List.map_cons, List.map_nil, List.sum_cons, List.sum_nil] at hsep
  have hb := encArr_length_ge (t.blocks.map encStr) (by
    intro x hx
    simp only [List.mem_map] at hx
    obtain ⟨b, _, rfl⟩ := hx
    exact encStr_length_ge b)
  have hbb := encArr_length_ge (t.blocked_by.map encStr) (by
    intro x hx
    simp only [List.mem_map] at hx
    obtain ⟨b, _, rfl⟩ := hx
    exact encStr_length_ge b)
  have hs := encArr_length_ge (t.sessions.map encSession) (by
    intro x hx
    simp only [List.mem_map] at hx
    obtain ⟨b, _, rfl⟩ := hx
    exact encSession_length_ge b)
  have hm7 := encMember_length_ge ['b', 'l', 'o', 'c', 'k', 's']
    (encArr (t.blocks.map encStr))
  have hm8 := encMember_length_ge ['b', 'l', 'o', 'c', 'k', 'e', 'd', '_', 'b', 'y']
    (encArr (t.blocked_by.map encStr))
  have hm9 := encMember_length_ge ['s', 'e', 's', 's', 'i', 'o', 'n', 's']
    (encArr (t.sessions.map encSession))
  simp only [List.length_map] at hb hbb hs
  simp only [List.length_cons, List.length_append, List.length_nil]
  omega

theorem parse_line (t : Task) :
    parseJsonText (encodeTask t ++ ['\n']) = some (taskToJson t) := by
  rw [parseJsonText]
  have hlen := encodeTask_length_ge t
  have hv := valEnc_task t (2 * (encodeTask t ++ ['\n']).length + 2) ['\n'] (by
    simp only [List.length_append, List.length_cons, List.length_nil]
    omega)
  rw [hv]
  rfl

theorem digitChar_ne_newline : ∀ k : Nat, k < 16 → ¬Nat.digitChar k = '\n' := by
  decide

theorem newline_notin_toHex4 (n : Nat) : '\n' ∉ toHex4 n := by
  rw [toHex4]
  intro hmem
  simp only [List.mem_cons, List.not_mem_nil, or_false] at hmem
  rcases hmem with h | h | h | h <;>
    exact digitChar_ne_newline _ (by omega) h.symm

set_option maxHeartbeats 1600000 in
theorem newline_notin_escapeChar (c : Char) : '\n' ∉ escapeChar c := by
  rw [escapeChar]
  split_ifs with h1 h2 h3 h4 h5 h6 h7 h8 h9 h10
  · decide
  · decide
  · decide
  · decide
  · decide
  · decide
  · decide
  · intro hmem
    simp only [List.mem_cons] at hmem
    rcases hmem with h | h | h
    · exact absurd h (by decide)
    · exact absurd h (by decide)
    · exact newline_notin_toHex4 _ h
  · intro hmem
    simp only [List.mem_cons, List.not_mem_nil, or_false] at hmem
    subst hmem
    exact h5 rfl
  · intro hmem
    simp only [List.mem_cons] at hmem
    rcases hmem with h | h | h
    · exact absurd h (by decide)
    · exact absurd h (by decide)
    · exact newline_notin_toHex4 _ h
  · intro hmem
    simp only [List.mem_append, List.mem_cons] at hmem
    rcases hmem with (h | h | h) | (h | h | h)
    · exact absurd h (by decide)
    · exact absurd h (by decide)
    · exact newline_notin_toHex4 _ h
    · exact absurd h (by decide)
    · exact absurd h (by decide)
    · exact newline_notin_toHex4 _ h

theorem newline_notin_encStr (s : Str) : '\n' ∉ encStr s := by
  rw [encStr]
  intro hmem
  simp only [List.mem_cons, List.mem_append, List.mem_flatten] at hmem
  rcases hmem with h | ⟨l, hl, hmem⟩ | h
  · exact absurd h (by decide)
  · simp only [List.mem_map] at hl
    obtain ⟨c, _, rfl⟩ := hl
    exact newline_notin_escapeChar c hmem
  · simp only [List.mem_cons, List.not_mem_nil, or_false] at h
    exact absurd h (by decide)

theorem newline_notin_sepJoin (ms : List Str) (h : ∀ m ∈ ms, '\n' ∉ m) :
    '\n' ∉ sepJoin commaSp ms := by
  induction ms with
  | nil => simp [sepJoin]
  | cons x xs ih =>
    cases xs with
    | nil => exact fun hm => h x (List.mem_cons_self x []) (by simpa [sepJoin] using hm)
    | cons y ys =>
      intro hm
      rw [sepJoin] at hm
      simp only [List.mem_append] at hm
      rcases hm with (hm | hm) | hm
      · exact h x (List.mem_cons_self x (y :: ys)) hm
      · exact absurd hm (by decide)
      · exact ih (fun m hmm => h m (List.mem_cons_of_mem x hmm)) hm

theorem newline_notin_encMember (k v : Str) (hk : '\n' ∉ encStr k)
    (hv : '\n' ∉ v) : '\n' ∉ encMember k v := by
  rw [encMember]
  intro hm
  simp only [List.mem_append, List.mem_cons, List.not_mem_nil, or_false] at hm
  rcases hm with (hm | hm | hm) | hm
  · exact hk hm
  · exact absurd hm (by decide)
  · exact absurd hm (by decide)
  · exact hv hm

theorem newline_notin_encArr (items : List Str) (h : ∀ x ∈ items, '\n' ∉ x) :
    '\n' ∉ encArr items := by
  rw [encArr]
  intro hm
  simp only [List.mem_cons, List.mem_append, List.not_mem_nil, or_false] at hm
  rcases hm with hm | hm | hm
  · exact absurd hm (by decide)
  · exact newline_notin_sepJoin items h hm
  · exact absurd hm (by decide)

theorem newline_notin_encObj (ms : List Str) (h : ∀ x ∈ ms, '\n' ∉ x) :
    '\n' ∉ encObj ms := by
  rw [encObj]
  intro hm
  simp only [List.mem_cons, List.mem_append, List.not_mem_nil, or_false] at hm
  rcases hm with hm | hm | hm
  · exact absurd hm (by decide)
  · exact newline_notin_sepJoin ms h hm
  · exact absurd hm (by decide)

theorem newline_notin_encSession (x : Session) : '\n' ∉ encSession x := by
  rw [encSession]
  refine newline_notin_encObj _ ?_
  intro m hm
  simp only [List.mem_cons, List.not_mem_nil, or_false] at hm
  rcases hm with rfl | rfl <;>
    exact newline_notin_encMember _ _ (newline_notin_encStr _) (newline_notin_encStr _)

theorem newline_notin_encodeTask (t : Task) : '\n' ∉ encodeTask t := by
  rw [encodeTask]
  refine newline_notin_encObj _ ?_
  intro m hm
  simp only [List.mem_cons, List.not_mem_nil, or_false] at hm
  rcases hm with rfl | rfl | rfl | rfl | rfl | rfl | rfl | rfl | rfl
  · exact newline_notin_encMember _ _ (newline_notin_encStr _) (newline_notin_encStr _)
  · exact newline_notin_encMember _ _ (newline_notin_encStr _) (newline_notin_encStr _)
  · exact newline_notin_encMember _ _ (newline_notin_encStr _) (newline_notin_encStr _)
  · exact newline_notin_encMember _ _ (newline_notin_encStr _) (newline_notin_encStr _)
  · exact newline_notin_encMember _ _ (newline_notin_encStr _) (newline_notin_encStr _)
  · exact newline_notin_encMember _ _ (newline_notin_encStr _) (newline_notin_encStr _)
  · refine newline_notin_encMember _ _ (newline_notin_encStr _)
      (newline_notin_encArr _ ?_)
    intro y hy
    simp only [List.mem_map] at hy
    obtain ⟨b, _, rfl⟩ := hy
    exact newline_notin_encStr b
  · refine newline_notin_encMember _ _ (newline_notin_encStr _)
      (newline_notin_encArr _ ?_)
    intro y hy
    simp only [List.mem_map] at hy
    obtain ⟨b, _, rfl⟩ := hy
    exact newline_notin_encStr b
  · refine newline_notin_encMember _ _ (newline_notin_encStr _)
      (newline_notin_encArr _ ?_)
    intro y hy
    simp only [List.mem_map] at hy
    obtain ⟨b, _, rfl⟩ := hy
    exact newline_notin_encSession b

theorem linesOf_line (l rest : Str) (hl : '\n' ∉ l) :
    linesOf (l ++ '\n' :: rest) = (l ++ ['\n']) :: linesOf rest := by
  induction l with
  | nil =>
    rw [List.nil_append, linesOf, if_pos rfl]
    rfl
  | cons c l ih =>
    have hc : ¬c = '\n' := fun h => hl (h ▸ List.mem_cons_self c l)
    have hl2 : '\n' ∉ l := fun h => hl (List.mem_cons_of_mem c h)
    rw [List.cons_append, linesOf, if_neg hc, ih hl2]
    simp

theorem load_save (ts : List Task) :
    db_load_tasks (some (db_save_tasks ts)) = ts.map taskToJson := by
  rw [db_load_tasks, db_save_tasks]
  induction ts with
  | nil => rfl
  | cons t ts ih =>
    simp only [List.map_cons, List.flatten_cons]
    have hassoc : (encodeTask t ++ ['\n']) ++
        (ts.map (fun t => encodeTask t ++ ['\n'])).flatten =
        encodeTask t ++ '\n' :: (ts.map (fun t => encodeTask t ++ ['\n'])).flatten := by
      simp
    rw [hassoc, loadContent, linesOf_line _ _ (newline_notin_encodeTask t)]
    rw [List.filterMap_cons]
    rw [parse_line t]
    rw [loadContent] at ih
    rw [ih]

theorem sessionToJson_inj (x y : Session) (h : sessionToJson x = sessionToJson y) :
    x = y := by
  cases x
  cases y
  simp only [sessionToJson, Json.obj.injEq, List.cons.injEq, Prod.mk.injEq,
    Json.str.injEq, true_and, and_true] at h
  obtain ⟨ha, hb⟩ := h
  simp [ha, hb]

theorem taskToJson_inj : Function.Injective taskToJson := by
  intro t1 t2 h
  cases t1
  cases t2
  simp only [taskToJson, Json.obj.injEq, List.cons.injEq, Prod.mk.injEq,
    Json.str.injEq, Json.arr.injEq, true_and, and_true] at h
  obtain ⟨h1, h2, h3, h4, h5, h6, h7, h8, h9⟩ := h
  have hb : _ = _ := List.map_injective_iff.mpr
    (fun a b hab => Json.str.inj hab) h7
  have hbb : _ = _ := List.map_injective_iff.mpr
    (fun a b hab => Json.str.inj hab) h8
  have hs : _ = _ := List.map_injective_iff.mpr
    (fun a b hab => sessionToJson_inj a b hab) h9
  simp [h1, h2, h3, h4, h5, h6, hb, hbb, hs]

/-- C2: for every valid task collection (arbitrary Unicode text in every
string field, including empty, multi-paragraph, markdown-like and
entity-like text), loading the file written by `db_save_tasks` yields
exactly the saved tasks: each line decodes back to the task's dict, in
order, and the dict determines every field of the task. -/
theorem C2_encode_decode_roundtrip :
    (∀ ts : List Task, db_load_tasks (some (db_save_tasks ts)) = ts.map taskToJson) ∧
    Function.Injective taskToJson :=
  ⟨load_save, taskToJson_inj⟩

theorem load_mixed (entries : List (Str ⊕ Task))
    (hbad : ∀ bad, Sum.inl bad ∈ entries →
      parseJsonText (bad ++ ['\n']) = none ∧ '\n' ∉ bad) :
    loadContent (renderEntries entries) = (goodTasks entries).map taskToJson := by
  induction entries with
  | nil => rfl
  | cons e es ih =>
    have ihh := ih (fun bad hb => hbad bad (List.mem_cons_of_mem e hb))
    cases e with
    | inl bad =>
      obtain ⟨hparse, hnl⟩ := hbad bad (List.mem_cons_self _ es)
      rw [renderEntries] at ihh ⊢
      simp only [List.map_cons, List.flatten_cons]
      have hassoc : (bad ++ ['\n']) ++
          (es.map (fun e => match e with
            | Sum.inl bad => bad ++ ['\n']
            | Sum.inr t => encodeTask t ++ ['\n'])).flatten =
          bad ++ '\n' :: (es.map (fun e => match e with
            | Sum.inl bad => bad ++ ['\n']
            | Sum.inr t => encodeTask t ++ ['\n'])).flatten := by simp
      rw [loadContent, hassoc, linesOf_line _ _ hnl]
      rw [List.filterMap_cons, hparse]
      rw [loadContent] at ihh
      rw [ihh]
      simp [goodTasks]
    | inr t =>
      rw [renderEntries] at ihh ⊢
      simp only [List.map_cons, List.flatten_cons]
      have hassoc : (encodeTask t ++ ['\n']) ++
          (es.map (fun e => match e with
            | Sum.inl bad => bad ++ ['\n']
            | Sum.inr t => encodeTask t ++ ['\n'])).flatten =
          encodeTask t ++ '\n' :: (es.map (fun e => match e with
            | Sum.inl bad => bad ++ ['\n']
            | Sum.inr t => encodeTask t ++ ['\n'])).flatten := by simp
      rw [loadContent, hassoc, linesOf_line _ _ (newline_notin_encodeTask t)]
      rw [List.filterMap_cons, parse_line t]
      rw [loadContent] at ihh
      rw [ihh]
      simp [goodTasks]

/-- C9: `db_load_tasks` returns the empty collection when the store file
does not exist, and on a file mixing valid task lines with unparseable
lines it skips each unparseable line and returns exactly the tasks decoded
from the valid lines — the whole load never fails.  (The warning printed
for a skipped line goes to stderr and is not part of the returned data.) -/
theorem C9_load_tolerance (entries : List (Str ⊕ Task))
    (hbad : ∀ bad, Sum.inl bad ∈ entries →
      parseJsonText (bad ++ ['\n']) = none ∧ '\n' ∉ bad) :
    db_load_tasks none = [] ∧
    db_load_tasks (some (renderEntries entries)) =
      (goodTasks entries).map taskToJson :=
  ⟨rfl, load_mixed entries hbad⟩

theorem C9_load_tolerance_witness :
    (∀ bad, Sum.inl bad ∈
        [Sum.inl ['{'], Sum.inr sampleTask, Sum.inl "nonsense".data] →
      parseJsonText (bad ++ ['\n']) = none ∧ '\n' ∉ bad) ∧
    (db_load_tasks none = [] ∧
     db_load_tasks (some (renderEntries
        [Sum.inl ['{'], Sum.inr sampleTask, Sum.inl "nonsense".data])) =
      (goodTasks [Sum.inl ['{'], Sum.inr sampleTask,
        Sum.inl "nonsense".data]).map taskToJson) := by
  have hbad : ∀ bad, Sum.inl bad ∈
      ([Sum.inl ['{'], Sum.inr sampleTask, Sum.inl "nonsense".data] :
        List (Str ⊕ Task)) →
      parseJsonText (bad ++ ['\n']) = none ∧ '\n' ∉ bad := by
    intro bad hb
    simp only [List.mem_cons, List.not_mem_nil, or_false] at hb
    rcases hb with hb | hb | hb
    · rw [Sum.inl.inj hb]
      exact ⟨rfl, by decide⟩
    · exact absurd hb (by simp)
    · rw [Sum.inl.inj hb]
      exact ⟨rfl, by decide⟩
  exact ⟨hbad, C9_load_tolerance _ hbad⟩

theorem loadContent_save (ts : List Task) :
    loadContent (db_save_tasks ts) = ts.map taskToJson :=
  load_save ts

/-- C8 counterexample: `db_save_tasks` truncates the database file in place
and then writes record by record (readyq.py lines 130-133) — there is no
write-then-rename.  With previous collection `[sampleTask]` being
overwritten by `[sampleTask]`, the state just after truncation is one of the
observable intermediate states, and an unlocked concurrent load of it sees
the empty collection — neither the previous nor the new content. -/
theorem C8_counterexample :
    ∃ st ∈ dbSaveStates [sampleTask],
      ¬(loadContent st = loadContent (db_save_tasks [sampleTask]) ∨
        loadContent st = loadContent (db_save_tasks [sampleTask])) := by
  refine ⟨[], ?_, ?_⟩
  · rw [dbSaveStates]
    exact List.mem_map.mpr ⟨0, by simp, rfl⟩
  · rw [loadContent_save]
    have hnil : loadContent ([] : Str) = [] := rfl
    rw [hnil]
    intro h
    rcases h with h | h <;> exact absurd h (by simp)

/-- C8 (amended): `db_save_tasks` overwrites the file in place under the
writer lock, with no write-then-rename; since `db_load_tasks` takes no
lock, a concurrent reader can observe an intermediate state — for any
non-empty previous and new collections, some intermediate state of the
save loads as neither the previous nor the new collection. -/
theorem C8_save_not_atomic (prev new : List Task)
    (hprev : prev ≠ []) (hnew : new ≠ []) :
    ∃ st ∈ dbSaveStates new,
      loadContent st ≠ loadContent (db_save_tasks prev) ∧
      loadContent st ≠ loadContent (db_save_tasks new) := by
  refine ⟨[], ?_, ?_, ?_⟩
  · rw [dbSaveStates]
    exact List.mem_map.mpr ⟨0, by simp, rfl⟩
  · rw [loadContent_save]
    have hnil : loadContent ([] : Str) = [] := rfl
    rw [hnil]
    intro h
    exact hprev (by simpa using h.symm)
  · rw [loadContent_save]
    have hnil : loadContent ([] : Str) = [] := rfl
    rw [hnil]
    intro h
    exact hnew (by simpa using h.symm)

theorem C8_save_not_atomic_witness :
    ([sampleTask] ≠ ([] : List Task)) ∧
    ∃ st ∈ dbSaveStates [sampleTask],
      loadContent st ≠ loadContent (db_save_tasks [sampleTask]) ∧
      loadContent st ≠ loadContent (db_save_tasks [sampleTask]) :=
  ⟨by simp, C8_save_not_atomic [sampleTask] [sampleTask] (by simp) (by simp)⟩

/-! ## Position and lookup machinery for the graph commands -/

theorem getTask_eq_get (ts : List Task) (k : Nat) (hk : k < ts.length) :
    getTask ts k = ts.get ⟨k, hk⟩ := by
  rw [getTask, List.getD_eq_getElem _ _ hk]
  rfl

theorem mem_iff_getTask (ts : List Task) (u : Task) :
    u ∈ ts ↔ ∃ k, k < ts.length ∧ getTask ts k = u := by
  rw [List.mem_iff_get]
  constructor
  · rintro ⟨⟨k, hk⟩, rfl⟩
    exact ⟨k, hk, getTask_eq_get ts k hk⟩
  · rintro ⟨k, hk, hget⟩
    exact ⟨⟨k, hk⟩, by rw [← hget, getTask_eq_get ts k hk]⟩

theorem modifyAt_length (ts : List Task) (i : Nat) (f : Task → Task) :
    (modifyAt ts i f).length = ts.length := by
  induction ts generalizing i with
  | nil => rfl
  | cons t ts ih =>
    cases i with
    | zero => rfl
    | succ n => simp [modifyAt, ih]

theorem getTask_modifyAt_self (ts : List Task) (i : Nat) (f : Task → Task)
    (hi : i < ts.length) : getTask (modifyAt ts i f) i = f (getTask ts i) := by
  induction ts generalizing i with
  | nil => simp at hi
  | cons t ts ih =>
    cases i with
    | zero => rfl
    | succ n =>
      simp only [List.length_cons] at hi
      exact ih n (by omega)

theorem getTask_modifyAt_ne (ts : List Task) (i : Nat) (f : Task → Task)
    (k : Nat) (hk : k ≠ i) : getTask (modifyAt ts i f) k = getTask ts k := by
  induction ts generalizing i k with
  | nil => cases i <;> rfl
  | cons t ts ih =>
    cases i with
    | zero =>
      cases k with
      | zero => exact absurd rfl hk
      | succ m => rfl
    | succ n =>
      cases k with
      | zero => rfl
      | succ m => exact ih n m (fun h => hk (by omega))

theorem foldl_pick (P : Nat → Prop) [DecidablePred P] :
    ∀ (l : List Nat) (acc : Option Nat),
      (l.foldl (fun a k => if P k then some k else a) acc = acc ∧
        ∀ k ∈ l, ¬P k) ∨
      (∃ j, l.foldl (fun a k => if P k then some k else a) acc = some j ∧
        j ∈ l ∧ P j) := by
  intro l
  induction l with
  | nil => exact fun acc => Or.inl ⟨rfl, by simp⟩
  | cons k l ih =>
    intro acc
    by_cases hk : P k
    · rcases ih (some k) with ⟨heq, hall⟩ | ⟨j, heq, hj, hPj⟩
      · refine Or.inr ⟨k, ?_, List.mem_cons_self k l, hk⟩
        simp only [List.foldl_cons, if_pos hk]
        exact heq
      · refine Or.inr ⟨j, ?_, List.mem_cons_of_mem k hj, hPj⟩
        simp only [List.foldl_cons, if_pos hk]
        exact heq
    · rcases ih acc with ⟨heq, hall⟩ | ⟨j, heq, hj, hPj⟩
      · refine Or.inl ⟨?_, ?_⟩
        · simp only [List.foldl_cons, if_neg hk]
          exact heq
        · intro x hx
          rcases List.mem_cons.mp hx with rfl | hx
          · exact hk
          · exact hall x hx
      · refine Or.inr ⟨j, ?_, List.mem_cons_of_mem k hj, hPj⟩
        simp only [List.foldl_cons, if_neg hk]
        exact heq

theorem lastIdxOf_none (x : Str) (ts : List Task) (h : lastIdxOf x ts = none) :
    ∀ k, k < ts.length → (getTask ts k).id ≠ x := by
  intro k hk hcon
  rw [lastIdxOf] at h
  rcases foldl_pick (fun k => (getTask ts k).id = x) (List.range ts.length)
      none with ⟨_, hall⟩ | ⟨j, heq, _, _⟩
  · exact hall k (List.mem_range.mpr hk) hcon
  · rw [h] at heq
    cases heq

theorem lastIdxOf_some (x : Str) (ts : List Task) (j : Nat)
    (h : lastIdxOf x ts = some j) : j < ts.length ∧ (getTask ts j).id = x := by
  rw [lastIdxOf] at h
  rcases foldl_pick (fun k => (getTask ts k).id = x) (List.range ts.length)
      none with ⟨heq, _⟩ | ⟨j2, heq, hj2, hPj⟩
  · rw [h] at heq
    cases heq
  · rw [h] at heq
    cases heq
    exact ⟨List.mem_range.mp hj2, hPj⟩

theorem lastIdxOf_exists (x : Str) (ts : List Task)
    (h : ∃ k, k < ts.length ∧ (getTask ts k).id = x) :
    ∃ j, lastIdxOf x ts = some j := by
  obtain ⟨k, hk, hid⟩ := h
  rcases hcase : lastIdxOf x ts with _ | j
  · exact absurd hid (lastIdxOf_none x ts hcase k hk)
  · exact ⟨j, rfl⟩

theorem firstMatchIdx_some (p : Str) (ts : List Task) (j : Nat)
    (h : firstMatchIdx p ts = some j) :
    j < ts.length ∧ p.isPrefixOf (getTask ts j).id = true := by
  rw [firstMatchIdx] at h
  by_cases hlt : ts.findIdx (fun t => p.isPrefixOf t.id) < ts.length
  · rw [if_pos hlt] at h
    cases h
    refine ⟨hlt, ?_⟩
    rw [getTask_eq_get _ _ hlt]
    simpa using @List.findIdx_get _ (fun t => p.isPrefixOf t.id) ts hlt
  · rw [if_neg hlt] at h
    cases h

theorem firstMatchIdx_exists (p : Str) (ts : List Task) (u : Task)
    (hu : u ∈ ts) (hp : p.isPrefixOf u.id = true) :
    ∃ j, firstMatchIdx p ts = some j := by
  have hlt : ts.findIdx (fun t => p.isPrefixOf t.id) < ts.length :=
    List.findIdx_lt_length_of_exists ⟨u, hu, hp⟩
  exact ⟨_, by rw [firstMatchIdx, if_pos hlt]⟩

theorem id_unique (ts : List Task) (hids : NodupIds ts) (u v : Task)
    (hu : u ∈ ts) (hv : v ∈ ts) (h : u.id = v.id) : u = v :=
  List.inj_on_of_nodup_map hids hu hv h

theorem pos_id_unique (ts : List Task) (hids : NodupIds ts) (k m : Nat)
    (hk : k < ts.length) (hm : m < ts.length)
    (h : (getTask ts k).id = (getTask ts m).id) : k = m := by
  rw [NodupIds] at hids
  have hget := List.nodup_iff_injective_get.mp hids
  rw [getTask_eq_get _ _ hk, getTask_eq_get _ _ hm] at h
  have : (ts.map Task.id).get ⟨k, by simpa using hk⟩ =
      (ts.map Task.id).get ⟨m, by simpa using hm⟩ := by
    simp only [List.get_map]
    exact h
  have := hget this
  simpa using this

theorem find_task_found (p : Str) (ts : List Task) (t : Task)
    (h : find_task p ts = .found t) :
    p ≠ [] ∧ ts.filter (fun t => p.isPrefixOf t.id) = [t] := by
  by_cases hp : p = []
  · rw [find_task, if_pos hp] at h
    cases h
  · refine ⟨hp, ?_⟩
    rw [find_task, if_neg hp] at h
    rcases hfil : ts.filter (fun t => p.isPrefixOf t.id) with _ | ⟨a, _ | ⟨b, l⟩⟩
    · rw [hfil] at h
      cases h
    · rw [hfil] at h
      cases h
      exact hfil
    · rw [hfil] at h
      cases h

theorem filter_singleton_findIdx (p : Str) (ts : List Task) (t : Task)
    (hfil : ts.filter (fun t => p.isPrefixOf t.id) = [t]) :
    ∃ i, i < ts.length ∧ ts.findIdx (fun t => p.isPrefixOf t.id) = i ∧
      getTask ts i = t ∧ p.isPrefixOf t.id = true := by
  have ht : t ∈ ts.filter (fun t => p.isPrefixOf t.id) := by
    rw [hfil]
    exact List.mem_cons_self t []
  have htm := List.mem_filter.mp ht
  have hlt : ts.findIdx (fun t => p.isPrefixOf t.id) < ts.length :=
    List.findIdx_lt_length_of_exists ⟨t, htm.1, htm.2⟩
  refine ⟨_, hlt, rfl, ?_, htm.2⟩
  have hpred : (fun t => p.isPrefixOf t.id)
      (ts.get ⟨ts.findIdx (fun t => p.isPrefixOf t.id), hlt⟩) = true :=
    @List.findIdx_get _ (fun t => p.isPrefixOf t.id) ts hlt
  have hmem : ts.get ⟨ts.findIdx (fun t => p.isPrefixOf t.id), hlt⟩ ∈
      ts.filter (fun t => p.isPrefixOf t.id) :=
    List.mem_filter.mpr ⟨List.get_mem ts _ hlt, hpred⟩
  rw [hfil] at hmem
  simp only [List.mem_cons, List.not_mem_nil, or_false] at hmem
  rw [getTask_eq_get _ _ hlt, hmem]

theorem findTaskIdx_found (p : Str) (ts : List Task) (t : Task)
    (h : find_task p ts = .found t) :
    ∃ i, findTaskIdx p ts = some i ∧ i < ts.length ∧ getTask ts i = t := by
  obtain ⟨hp, hfil⟩ := find_task_found p ts t h
  obtain ⟨i, hlt, hidx, hget, _⟩ := filter_singleton_findIdx p ts t hfil
  refine ⟨i, ?_, hlt, hget⟩
  rw [findTaskIdx, h, hidx]

/-! ## The claims about resolution, readiness and creation -/

theorem isPrefixOf_iff (p s : Str) : p.isPrefixOf s = true ↔ ∃ w, s = p ++ w := by
  rw [List.isPrefixOf_iff_prefix]
  constructor
  · rintro ⟨w, rfl⟩
    exact ⟨w, rfl⟩
  · rintro ⟨w, rfl⟩
    exact ⟨w, rfl⟩

/-- C6: `find_task` is case-sensitive exact-prefix matching on ids: an
empty prefix or zero matches give NotFound, exactly one match returns that
task, two or more matches give Ambiguous carrying every matching task (ids
and titles included), and in the NotFound/Ambiguous cases the mutating
commands leave the collection untouched. -/
theorem C6_find_task (p : Str) (ts : List Task) :
    (p = [] → find_task p ts = .notFound) ∧
    (p ≠ [] → ts.countP (fun t => p.isPrefixOf t.id) = 0 →
      find_task p ts = .notFound) ∧
    (∀ t, p ≠ [] → ts.filter (fun t => p.isPrefixOf t.id) = [t] →
      find_task p ts = .found t ∧ t ∈ ts ∧ ∃ w, t.id = p ++ w) ∧
    (p ≠ [] → 2 ≤ ts.countP (fun t => p.isPrefixOf t.id) →
      find_task p ts = .ambiguous (ts.filter (fun t => p.isPrefixOf t.id)) ∧
      ∀ u ∈ ts.filter (fun t => p.isPrefixOf t.id), ∃ w, u.id = p ++ w) ∧
    (∀ now, (find_task p ts = .notFound ∨
        ∃ ms, find_task p ts = .ambiguous ms) →
      cmd_delete p now ts = ts ∧
      (∀ st, cmd_update_status p st now ts = ts) ∧
      (∀ pfxs, applyEdgeCmd addBlocksOne p pfxs now ts = ts ∧
        applyEdgeCmd addBlockedByOne p pfxs now ts = ts ∧
        applyEdgeCmd removeBlocksOne p pfxs now ts = ts ∧
        applyEdgeCmd removeBlockedByOne p pfxs now ts = ts)) := by
  have hnotfound : ∀ r, find_task p ts = r → r ≠ .notFound →
      (∀ ms, r ≠ .ambiguous ms) → ∃ t, r = .found t := by
    intro r _ h1 h2
    cases r with
    | found t => exact ⟨t, rfl⟩
    | ambiguous ms => exact absurd rfl (h2 ms)
    | notFound => exact absurd rfl h1
  refine ⟨?_, ?_, ?_, ?_, ?_⟩
  · intro hp
    rw [find_task, if_pos hp]
  · intro hp h0
    rw [List.countP_eq_length_filter] at h0
    have hfil := List.length_eq_zero.mp h0
    rw [find_task, if_neg hp, hfil]
  · intro t hp hfil
    refine ⟨by rw [find_task, if_neg hp, hfil], ?_, ?_⟩
    · have ht : t ∈ ts.filter (fun t => p.isPrefixOf t.id) := by
        rw [hfil]
        exact List.mem_cons_self t []
      exact (List.mem_filter.mp ht).1
    · have ht : t ∈ ts.filter (fun t => p.isPrefixOf t.id) := by
        rw [hfil]
        exact List.mem_cons_self t []
      exact (isPrefixOf_iff p t.id).mp (List.mem_filter.mp ht).2
  · intro hp h2
    rw [List.countP_eq_length_filter] at h2
    constructor
    · rw [find_task, if_neg hp]
      rcases hfil : ts.filter (fun t => p.isPrefixOf t.id) with _ | ⟨a, _ | ⟨b, l⟩⟩
      · rw [hfil] at h2
        simp at h2
      · rw [hfil] at h2
        simp at h2
      · rw [hfil]
    · intro u hu
      exact (isPrefixOf_iff p u.id).mp (List.mem_filter.mp hu).2
  · intro now hcase
    have hnf : ∀ t, find_task p ts ≠ .found t := by
      intro t hcon
      rcases hcase with h | ⟨ms, h⟩ <;> rw [hcon] at h <;> cases h
    have hidx : findTaskIdx p ts = none := by
      rw [findTaskIdx]
      rcases hft : find_task p ts with t | ms | _
      · exact absurd hft (hnf t)
      · rfl
      · rfl
    refine ⟨?_, ?_, ?_⟩
    · rw [cmd_delete]
      rcases hft : find_task p ts with t | ms | _
      · exact absurd hft (hnf t)
      · rfl
      · rfl
    · intro st
      rw [cmd_update_status, hidx]
    · intro pfxs
      refine ⟨?_, ?_, ?_, ?_⟩ <;> rw [applyEdgeCmd, hidx]

theorem C6_find_task_witness :
    ([mkTask ['a', 'b'], mkTask ['a', 'c']].filter
        (fun t => ['a', 'b'].isPrefixOf t.id) = [mkTask ['a', 'b']]) ∧
    (find_task ['a', 'b'] [mkTask ['a', 'b'], mkTask ['a', 'c']] =
        .found (mkTask ['a', 'b']) ∧
      mkTask ['a', 'b'] ∈ [mkTask ['a', 'b'], mkTask ['a', 'c']] ∧
      ∃ w, (mkTask ['a', 'b']).id = ['a', 'b'] ++ w) :=
  ⟨by decide,
   (C6_find_task ['a', 'b'] [mkTask ['a', 'b'], mkTask ['a', 'c']]).2.2.1
     (mkTask ['a', 'b']) (by decide) (by decide)⟩

theorem blocker_done_iff (ts : List Task) (hids : NodupIds ts) (b : Str) :
    ((match lastIdxOf b ts with
      | some j => (getTask ts j).status == "done".data
      | none => false) = true) ↔
    ∃ u ∈ ts, u.id = b ∧ u.status = "done".data := by
  constructor
  · intro h
    rcases hcase : lastIdxOf b ts with _ | j
    · rw [hcase] at h
      cases h
    · rw [hcase] at h
      obtain ⟨hj, hid⟩ := lastIdxOf_some b ts j hcase
      exact ⟨getTask ts j, (mem_iff_getTask ts _).mpr ⟨j, hj, rfl⟩, hid,
        by simpa using h⟩
  · rintro ⟨u, hu, hid, hst⟩
    obtain ⟨k, hk, hget⟩ := (mem_iff_getTask ts u).mp hu
    obtain ⟨j, hj⟩ := lastIdxOf_exists b ts ⟨k, hk, by rw [hget, hid]⟩
    rw [hj]
    obtain ⟨hjlt, hjid⟩ := lastIdxOf_some b ts j hj
    have hgu : getTask ts j = u := by
      refine id_unique ts hids _ _ ?_ hu (by rw [hjid, hid])
      exact (mem_iff_getTask ts _).mpr ⟨j, hjlt, rfl⟩
    show ((getTask ts j).status == "done".data) = true
    rw [hgu, hst]
    rfl

/-- C5: with unique ids, `cmd_ready` selects exactly the tasks whose status
is not `done` and whose every `blocked_by` entry resolves to a task in the
collection with status `done`; a blocker id with no matching task keeps the
task out of the ready set. -/
theorem C5_ready_set (ts : List Task) (hids : NodupIds ts) (t : Task) :
    t ∈ cmd_ready ts ↔
      t ∈ ts ∧ ¬t.status = "done".data ∧
      ∀ b ∈ t.blocked_by, ∃ u ∈ ts, u.id = b ∧ u.status = "done".data := by
  rw [cmd_ready, List.mem_filter, Bool.and_eq_true, List.all_eq_true]
  constructor
  · rintro ⟨hmem, hstat, hall⟩
    refine ⟨hmem, by simpa using hstat, ?_⟩
    intro b hb
    exact (blocker_done_iff ts hids b).mp (hall b hb)
  · rintro ⟨hmem, hstat, hall⟩
    refine ⟨hmem, by simpa using hstat, ?_⟩
    intro b hb
    exact (blocker_done_iff ts hids b).mpr (hall b hb)

theorem C5_ready_set_witness :
    NodupIds [mkTask ['a'], mkTask ['b']] ∧
    (mkTask ['a'] ∈ cmd_ready [mkTask ['a'], mkTask ['b']] ↔
      mkTask ['a'] ∈ [mkTask ['a'], mkTask ['b']] ∧
      ¬(mkTask ['a']).status = "done".data ∧
      ∀ b ∈ (mkTask ['a']).blocked_by,
        ∃ u ∈ [mkTask ['a'], mkTask ['b']], u.id = b ∧
          u.status = "done".data) :=
  ⟨by decide, C5_ready_set [mkTask ['a'], mkTask ['b']] (by decide) (mkTask ['a'])⟩

/-- C10: `cmd_new` with a truthy (non-empty) `--blocked-by` argument always
stores the new task with status `blocked`: the new task is appended with
status `blocked` whatever the prefixes resolve to, and when no supplied
prefix resolves to an existing task the collection simply gains the new
task with status `blocked` and an empty `blocked_by` list — unresolvable
prefixes are ignored rather than failing the creation. -/
theorem C10_new_blocked (title description s id now : Str) (ts : List Task)
    (hs : s ≠ []) :
    (∃ ts2 nt, cmd_new title description (some s) id now ts = ts2 ++ [nt] ∧
      nt.id = id ∧ nt.status = "blocked".data ∧ ts2.length = ts.length) ∧
    ((∀ pfx ∈ (splitComma s).map stripStr, firstMatchIdx pfx ts = none) →
      cmd_new title description (some s) id now ts =
        ts ++ [{ id := id, title := title, description := description,
                  status := "blocked".data, created_at := now, updated_at := now,
                  blocks := [], blocked_by := [], sessions := [] }]) := by
  rw [cmd_new]
  simp only [if_neg hs]
  constructor
  · have hfold : ∀ (pfxs : List Str) (nt0 : Task) (acc : List Task),
        ∃ nt1 acc1,
          pfxs.foldl (fun (acc : Task × List Task) pfx =>
            match firstMatchIdx pfx acc.2 with
            | none => acc
            | some j =>
              ({ acc.1 with blocked_by := acc.1.blocked_by ++ [(getTask acc.2 j).id] },
               modifyAt acc.2 j (fun u =>
                 { u with blocks := u.blocks ++ [id], updated_at := now })))
            (nt0, acc) = (nt1, acc1) ∧
          nt1.id = nt0.id ∧ nt1.status = nt0.status ∧ acc1.length = acc.length := by
      intro pfxs
      induction pfxs with
      | nil => exact fun nt0 acc => ⟨nt0, acc, rfl, rfl, rfl, rfl⟩
      | cons pfx pfxs ih =>
        intro nt0 acc
        simp only [List.foldl_cons]
        rcases hm : firstMatchIdx pfx acc with _ | j
        · exact ih nt0 acc
        · obtain ⟨nt1, acc1, heq, hid1, hst1, hlen1⟩ := ih
            { nt0 with blocked_by := nt0.blocked_by ++ [(getTask acc j).id] }
            (modifyAt acc j (fun u =>
              { u with blocks := u.blocks ++ [id], updated_at := now }))
          exact ⟨nt1, acc1, heq, hid1, hst1, by rw [hlen1, modifyAt_length]⟩
    obtain ⟨nt1, acc1, heq, hid1, hst1, hlen1⟩ := hfold ((splitComma s).map stripStr)
      { id := id, title := title, description := description,
        status := "blocked".data, created_at := now, updated_at := now,
        blocks := [], blocked_by := [], sessions := [] } ts
    refine ⟨acc1, nt1, ?_, hid1, hst1, hlen1⟩
    simp only [heq]
  · intro hnone
    have hfold : ∀ (pfxs : List Str), (∀ pfx ∈ pfxs, firstMatchIdx pfx ts = none) →
        ∀ (nt0 : Task),
        pfxs.foldl (fun (acc : Task × List Task) pfx =>
          match firstMatchIdx pfx acc.2 with
          | none => acc
          | some j =>
            ({ acc.1 with blocked_by := acc.1.blocked_by ++ [(getTask acc.2 j).id] },
             modifyAt acc.2 j (fun u =>
               { u with blocks := u.blocks ++ [id], updated_at := now })))
          (nt0, ts) = (nt0, ts) := by
      intro pfxs hp
      induction pfxs with
      | nil => exact fun nt0 => rfl
      | cons pfx pfxs ih =>
        intro nt0
        simp only [List.foldl_cons, hp pfx (List.mem_cons_self pfx pfxs)]
        exact ih (fun q hq => hp q (List.mem_cons_of_mem pfx hq)) nt0
    rw [hfold ((splitComma s).map stripStr) hnone _]

theorem C10_new_blocked_witness :
    (['x'] : Str) ≠ [] ∧
    (∀ pfx ∈ (splitComma ['x']).map stripStr,
      firstMatchIdx pfx [mkTask ['a']] = none) ∧
    cmd_new ['T'] [] (some ['x']) ['n'] ['t'] [mkTask ['a']] =
      [mkTask ['a']] ++
        [{ id := ['n'], title := ['T'], description := [],
            status := "blocked".data, created_at := ['t'], updated_at := ['t'],
            blocks := [], blocked_by := [], sessions := [] }] :=
  ⟨by decide, by decide,
   (C10_new_blocked ['T'] [] ['x'] ['n'] ['t'] [mkTask ['a']] (by decide)).2
     (by decide)⟩

/-! ## The done-cascade -/

theorem findTaskIdx_lt (p : Str) (ts : List Task) (i : Nat)
    (h : findTaskIdx p ts = some i) : i < ts.length := by
  rw [findTaskIdx] at h
  rcases hft : find_task p ts with t | ms | _ <;> rw [hft] at h
  · obtain ⟨i0, hlt, hidx, _, _⟩ :=
      filter_singleton_findIdx p ts t (find_task_found p ts t hft).2
    cases h
    rw [hidx]
    exact hlt
  · cases h
  · cases h

theorem unblockStep_id (tid now : Str) (u : Task) :
    (unblockStep tid now u).id = u.id := by
  rw [unblockStep]
  split_ifs <;> rfl

theorem unblockStep_blocks (tid now : Str) (u : Task) :
    (unblockStep tid now u).blocks = u.blocks := by
  rw [unblockStep]
  split_ifs <;> rfl

theorem unblockStep_blocked_by (tid now : Str) (u : Task) :
    (unblockStep tid now u).blocked_by = u.blocked_by.erase tid := by
  rw [unblockStep]
  by_cases h : tid ∈ u.blocked_by
  · rw [if_pos h]
  · rw [if_neg h, List.erase_of_not_mem h]

theorem unblockStep_status_open (tid now : Str) (u : Task)
    (h1 : tid ∈ u.blocked_by) (h2 : u.blocked_by.erase tid = [])
    (h3 : u.status = "blocked".data) :
    (unblockStep tid now u).status = "open".data := by
  rw [unblockStep, if_pos h1]
  show (if u.blocked_by.erase tid = [] ∧ u.status = "blocked".data
        then "open".data else u.status) = "open".data
  rw [if_pos ⟨h2, h3⟩]

theorem unblockStep_status_stable (tid now : Str) (u : Task)
    (h2 : u.blocked_by.erase tid ≠ []) :
    (unblockStep tid now u).status = u.status := by
  rw [unblockStep]
  by_cases h1 : tid ∈ u.blocked_by
  · rw [if_pos h1]
    show (if u.blocked_by.erase tid = [] ∧ u.status = "blocked".data
          then "open".data else u.status) = u.status
    rw [if_neg (fun hc => h2 hc.1)]
  · rw [if_neg h1]

theorem modifyAt_oob (ts : List Task) (j : Nat) (f : Task → Task)
    (h : ts.length ≤ j) : modifyAt ts j f = ts := by
  induction ts generalizing j with
  | nil => cases j <;> rfl
  | cons t ts ih =>
    cases j with
    | zero => simp at h
    | succ n =>
      rw [modifyAt, ih n (by simp only [List.length_cons] at h; omega)]

theorem getTask_modifyAt_id (ts : List Task) (j : Nat) (f : Task → Task)
    (hf : ∀ t, (f t).id = t.id) (k : Nat) :
    (getTask (modifyAt ts j f) k).id = (getTask ts k).id := by
  by_cases hkj : k = j
  · subst hkj
    by_cases hk : k < ts.length
    · rw [getTask_modifyAt_self ts k f hk, hf]
    · rw [modifyAt_oob ts k f (by omega)]
  · rw [getTask_modifyAt_ne ts j f k hkj]

theorem map_id_modifyAt (ts : List Task) (j : Nat) (f : Task → Task)
    (hf : ∀ t, (f t).id = t.id) :
    (modifyAt ts j f).map Task.id = ts.map Task.id := by
  induction ts generalizing j with
  | nil => rfl
  | cons t ts ih =>
    cases j with
    | zero => simp [modifyAt, hf]
    | succ n => simp [modifyAt, ih n]

theorem nodupIds_modifyAt (ts : List Task) (j : Nat) (f : Task → Task)
    (hf : ∀ t, (f t).id = t.id) (h : NodupIds ts) :
    NodupIds (modifyAt ts j f) := by
  rw [NodupIds, map_id_modifyAt ts j f hf]
  exact h

theorem cascade_fold (tid now : Str) (bids : List Str) :
    ∀ (acc : List Task), NodupIds acc → bids.Nodup →
      (bids.foldl (fun acc bid =>
          match lastIdxOf bid acc with
          | none => acc
          | some j => modifyAt acc j (unblockStep tid now)) acc).length =
        acc.length ∧
      ∀ k, k < acc.length →
        ((getTask acc k).id ∈ bids →
          getTask (bids.foldl (fun acc bid =>
            match lastIdxOf bid acc with
            | none => acc
            | some j => modifyAt acc j (unblockStep tid now)) acc) k =
            unblockStep tid now (getTask acc k)) ∧
        ((getTask acc k).id ∉ bids →
          getTask (bids.foldl (fun acc bid =>
            match lastIdxOf bid acc with
            | none => acc
            | some j => modifyAt acc j (unblockStep tid now)) acc) k =
            getTask acc k) := by
  induction bids with
  | nil =>
    intro acc _ _
    exact ⟨rfl, fun k hk =>
      ⟨fun h => absurd h (List.not_mem_nil _), fun _ => rfl⟩⟩
  | cons bid bids ih =>
    intro acc hN hnd
    obtain ⟨hbn, hnd'⟩ := List.nodup_cons.mp hnd
    simp only [List.foldl_cons]
    rcases hL : lastIdxOf bid acc with _ | j
    · obtain ⟨hlen, hpt⟩ := ih acc hN hnd'
      refine ⟨hlen, fun k hk => ⟨?_, ?_⟩⟩
      · intro hmem
        rcases List.mem_cons.mp hmem with h | h
        · exact absurd h (lastIdxOf_none bid acc hL k hk)
        · exact (hpt k hk).1 h
      · intro hnmem
        exact (hpt k hk).2 (fun h => hnmem (List.mem_cons_of_mem _ h))
    · obtain ⟨hjlt, hjid⟩ := lastIdxOf_some bid acc j hL
      have hN' : NodupIds (modifyAt acc j (unblockStep tid now)) :=
        nodupIds_modifyAt acc j _ (fun t => unblockStep_id tid now t) hN
      obtain ⟨hlen, hpt⟩ := ih (modifyAt acc j (unblockStep tid now)) hN' hnd'
      refine ⟨hlen.trans (modifyAt_length acc j _), fun k hk => ⟨?_, ?_⟩⟩
      · intro hmem
        have hk' : k < (modifyAt acc j (unblockStep tid now)).length := by
          rw [modifyAt_length]
          exact hk
        by_cases hkj : k = j
        · subst hkj
          have h1 : getTask (modifyAt acc k (unblockStep tid now)) k =
              unblockStep tid now (getTask acc k) :=
            getTask_modifyAt_self acc k _ hjlt
          have hnotin : (getTask (modifyAt acc k (unblockStep tid now)) k).id ∉
              bids := by
            rw [h1, unblockStep_id, hjid]
            exact hbn
          exact ((hpt k hk').2 hnotin).trans h1
        · have h2 : getTask (modifyAt acc j (unblockStep tid now)) k =
              getTask acc k := getTask_modifyAt_ne acc j _ k hkj
          have hmem' : (getTask (modifyAt acc j (unblockStep tid now)) k).id ∈
              bids := by
            rw [h2]
            rcases List.mem_cons.mp hmem with h | h
            · exact absurd (pos_id_unique acc hN k j hk hjlt
                (by rw [h, hjid])) hkj
            · exact h
          have h3 := (hpt k hk').1 hmem'
          rw [h2] at h3
          exact h3
      · intro hnmem
        have hk' : k < (modifyAt acc j (unblockStep tid now)).length := by
          rw [modifyAt_length]
          exact hk
        have hne : (getTask acc k).id ≠ bid := fun h =>
          hnmem (by rw [h]; exact List.mem_cons_self _ _)
        have hkj : k ≠ j := fun h => hne (by rw [h, hjid])
        have h2 : getTask (modifyAt acc j (unblockStep tid now)) k =
            getTask acc k := getTask_modifyAt_ne acc j _ k hkj
        have hnmem' : (getTask (modifyAt acc j (unblockStep tid now)) k).id ∉
            bids := by
          rw [h2]
          exact fun h => hnmem (List.mem_cons_of_mem _ h)
        have h3 := (hpt k hk').2 hnmem'
        rw [h2] at h3
        exact h3

theorem cmd_update_status_done (p now : Str) (ts : List Task) (i : Nat)
    (hfind : findTaskIdx p ts = some i) :
    cmd_update_status p "done".data now ts =
      ((getTask (modifyAt ts i
          (fun t => { t with updated_at := now, status := "done".data })) i).blocks).foldl
        (fun acc bid =>
          match lastIdxOf bid acc with
          | none => acc
          | some j => modifyAt acc j (unblockStep (getTask ts i).id now))
        (modifyAt ts i
          (fun t => { t with updated_at := now, status := "done".data })) := by
  unfold cmd_update_status
  rw [hfind]
  rfl

/-- C4: marking the task at the resolved position `done` cascades over its
`blocks` list: every other task whose id lies in that list has the completed
task's id removed from its `blocked_by` (first occurrence, as
`list.remove`); if the remaining `blocked_by` is empty and the task was
`blocked` it becomes `open`, while if other blockers remain its status is
untouched; tasks whose id is not in the `blocks` list are untouched.  Stated
for collections with unique ids whose completed task has a duplicate-free
`blocks` list not containing its own id. -/
theorem C4_done_cascade (p now : Str) (ts : List Task) (i : Nat)
    (hids : NodupIds ts) (hfind : findTaskIdx p ts = some i)
    (hnb : (getTask ts i).blocks.Nodup)
    (hself : (getTask ts i).id ∉ (getTask ts i).blocks) :
    (cmd_update_status p "done".data now ts).length = ts.length ∧
    getTask (cmd_update_status p "done".data now ts) i =
      { getTask ts i with updated_at := now, status := "done".data } ∧
    ∀ k, k < ts.length → k ≠ i →
      ((getTask ts k).id ∈ (getTask ts i).blocks →
        getTask (cmd_update_status p "done".data now ts) k =
          unblockStep (getTask ts i).id now (getTask ts k) ∧
        (getTask (cmd_update_status p "done".data now ts) k).blocked_by =
          (getTask ts k).blocked_by.erase (getTask ts i).id ∧
        ((getTask ts i).id ∈ (getTask ts k).blocked_by →
          (getTask ts k).blocked_by.erase (getTask ts i).id = [] →
          (getTask ts k).status = "blocked".data →
          (getTask (cmd_update_status p "done".data now ts) k).status =
            "open".data) ∧
        ((getTask ts k).blocked_by.erase (getTask ts i).id ≠ [] →
          (getTask (cmd_update_status p "done".data now ts) k).status =
            (getTask ts k).status)) ∧
      ((getTask ts k).id ∉ (getTask ts i).blocks →
        getTask (cmd_update_status p "done".data now ts) k = getTask ts k) := by
  have hilt : i < ts.length := findTaskIdx_lt p ts i hfind
  have hblocks : (getTask (modifyAt ts i
      (fun t => { t with updated_at := now, status := "done".data })) i).blocks =
      (getTask ts i).blocks := by
    rw [getTask_modifyAt_self ts i _ hilt]
  rw [cmd_update_status_done p now ts i hfind, hblocks]
  have hN0 : NodupIds (modifyAt ts i
      (fun t => { t with updated_at := now, status := "done".data })) :=
    nodupIds_modifyAt ts i _ (fun t => rfl) hids
  obtain ⟨hlen, hpt⟩ :=
    cascade_fold (getTask ts i).id now ((getTask ts i).blocks)
      (modifyAt ts i (fun t => { t with updated_at := now, status := "done".data }))
      hN0 hnb
  refine ⟨hlen.trans (modifyAt_length ts i _), ?_, ?_⟩
  · have hiM : i < (modifyAt ts i
        (fun t => { t with updated_at := now, status := "done".data })).length := by
      rw [modifyAt_length]
      exact hilt
    have hni : (getTask (modifyAt ts i
        (fun t => { t with updated_at := now, status := "done".data })) i).id ∉
        (getTask ts i).blocks := by
      rw [getTask_modifyAt_self ts i _ hilt]
      exact hself
    have h0 := (hpt i hiM).2 hni
    rw [getTask_modifyAt_self ts i _ hilt] at h0
    exact h0
  · intro k hk hki
    have hkM : k < (modifyAt ts i
        (fun t => { t with updated_at := now, status := "done".data })).length := by
      rw [modifyAt_length]
      exact hk
    have hgk : getTask (modifyAt ts i
        (fun t => { t with updated_at := now, status := "done".data })) k =
        getTask ts k := getTask_modifyAt_ne ts i _ k hki
    constructor
    · intro hmem
      have hmem' : (getTask (modifyAt ts i
          (fun t => { t with updated_at := now, status := "done".data })) k).id ∈
          (getTask ts i).blocks := by
        rw [hgk]
        exact hmem
      have h1 := (hpt k hkM).1 hmem'
      rw [hgk] at h1
      refine ⟨h1, ?_, ?_, ?_⟩
      · rw [h1, unblockStep_blocked_by]
      · intro ha hb hc
        rw [h1]
        exact unblockStep_status_open _ _ _ ha hb hc
      · intro hb
        rw [h1]
        exact unblockStep_status_stable _ _ _ hb
    · intro hmem
      have hmem' : (getTask (modifyAt ts i
          (fun t => { t with updated_at := now, status := "done".data })) k).id ∉
          (getTask ts i).blocks := by
        rw [hgk]
        exact hmem
      have h1 := (hpt k hkM).2 hmem'
      rw [hgk] at h1
      exact h1

theorem C4_done_cascade_witness :
    NodupIds [taskA, taskB] ∧ findTaskIdx ['a'] [taskA, taskB] = some 0 ∧
    getTask (cmd_update_status ['a'] "done".data ['t'] [taskA, taskB]) 1 =
      unblockStep (getTask [taskA, taskB] 0).id ['t']
        (getTask [taskA, taskB] 1) ∧
    (getTask (cmd_update_status ['a'] "done".data ['t'] [taskA, taskB]) 1).status =
      "open".data :=
  ⟨by decide, by decide,
   (((C4_done_cascade ['a'] ['t'] [taskA, taskB] 0 (by decide) (by decide)
        (by decide) (by decide)).2.2 1 (by decide) (by decide)).1
      (by decide)).1,
   (((C4_done_cascade ['a'] ['t'] [taskA, taskB] 0 (by decide) (by decide)
        (by decide) (by decide)).2.2 1 (by decide) (by decide)).1
      (by decide)).2.2.1 (by decide) (by decide) (by decide)⟩

/-! ## Preservation of the structural invariants by the edge commands -/

theorem edgeSym_iff_pos (ts : List Task) :
    EdgeSym ts ↔ ∀ k, k < ts.length → ∀ m, m < ts.length →
      ((getTask ts m).id ∈ (getTask ts k).blocks ↔
        (getTask ts k).id ∈ (getTask ts m).blocked_by) := by
  constructor
  · intro hs k hk m hm
    exact hs _ ((mem_iff_getTask ts _).mpr ⟨k, hk, rfl⟩) _
      ((mem_iff_getTask ts _).mpr ⟨m, hm, rfl⟩)
  · intro hp a ha b hb
    obtain ⟨k, hk, hka⟩ := (mem_iff_getTask ts a).mp ha
    obtain ⟨m, hm, hmb⟩ := (mem_iff_getTask ts b).mp hb
    subst hka
    subst hmb
    exact hp k hk m hm

theorem nodupEdges_iff_pos (ts : List Task) :
    NodupEdges ts ↔ ∀ k, k < ts.length →
      (getTask ts k).blocks.Nodup ∧ (getTask ts k).blocked_by.Nodup := by
  constructor
  · intro hs k hk
    exact hs _ ((mem_iff_getTask ts _).mpr ⟨k, hk, rfl⟩)
  · intro hp t ht
    obtain ⟨k, hk, hkt⟩ := (mem_iff_getTask ts t).mp ht
    subst hkt
    exact hp k hk

theorem wf_modifyAt_neutral (acc : List Task) (i : Nat) (f : Task → Task)
    (hfid : ∀ t, (f t).id = t.id)
    (hfb : ∀ t, (f t).blocks = t.blocks)
    (hfbb : ∀ t, (f t).blocked_by = t.blocked_by)
    (h : WF acc) :
    WF (modifyAt acc i f) ∧ (modifyAt acc i f).length = acc.length := by
  obtain ⟨hids, hnde, hsym⟩ := h
  have hlen := modifyAt_length acc i f
  have hpres : ∀ k, k < acc.length →
      (getTask (modifyAt acc i f) k).blocks = (getTask acc k).blocks ∧
      (getTask (modifyAt acc i f) k).blocked_by = (getTask acc k).blocked_by := by
    intro k hk
    by_cases hki : k = i
    · subst hki
      rw [getTask_modifyAt_self acc k f hk, hfb, hfbb]
      exact ⟨rfl, rfl⟩
    · rw [getTask_modifyAt_ne acc i f k hki]
      exact ⟨rfl, rfl⟩
  refine ⟨⟨?_, ?_, ?_⟩, hlen⟩
  · rw [NodupIds, map_id_modifyAt acc i f hfid]
    exact hids
  · rw [nodupEdges_iff_pos]
    intro k hk
    rw [hlen] at hk
    obtain ⟨h1, h2⟩ := hpres k hk
    rw [h1, h2]
    exact hnde (getTask acc k) ((mem_iff_getTask acc _).mpr ⟨k, hk, rfl⟩)
  · rw [edgeSym_iff_pos]
    intro k hk m hm
    rw [hlen] at hk hm
    rw [getTask_modifyAt_id acc i f hfid k, getTask_modifyAt_id acc i f hfid m,
        (hpres k hk).1, (hpres m hm).2]
    exact (edgeSym_iff_pos acc).mp hsym k hk m hm

theorem wf_two_addB (acc : List Task) (i j : Nat) (f g : Task → Task)
    (hi : i < acc.length) (hj : j < acc.length)
    (hfid : ∀ t, (f t).id = t.id)
    (hfP : ∀ t, (f t).blocked_by = t.blocked_by)
    (hfM : ∀ t y, y ∈ (f t).blocks ↔ y ∈ t.blocks ∨ y = (getTask acc j).id)
    (hfnd : ∀ t, t.blocks.Nodup → (f t).blocks.Nodup)
    (hgid : ∀ u, (g u).id = u.id)
    (hgP : ∀ u, (g u).blocks = u.blocks)
    (hgM : ∀ u y, y ∈ (g u).blocked_by ↔ y ∈ u.blocked_by ∨ y = (getTask acc i).id)
    (hgnd : ∀ u, u.blocked_by.Nodup → (g u).blocked_by.Nodup)
    (h : WF acc) :
    WF (modifyAt (modifyAt acc i f) j g) ∧
      (modifyAt (modifyAt acc i f) j g).length = acc.length := by
  obtain ⟨hids, hnde, hsym⟩ := h
  have hlen1 : (modifyAt acc i f).length = acc.length := modifyAt_length acc i f
  have hlen : (modifyAt (modifyAt acc i f) j g).length = acc.length :=
    (modifyAt_length _ j g).trans hlen1
  have hId : ∀ k, (getTask (modifyAt (modifyAt acc i f) j g) k).id =
      (getTask acc k).id := fun k =>
    (getTask_modifyAt_id _ j g hgid k).trans (getTask_modifyAt_id acc i f hfid k)
  have hmap : (modifyAt (modifyAt acc i f) j g).map Task.id = acc.map Task.id :=
    (map_id_modifyAt _ j g hgid).trans (map_id_modifyAt acc i f hfid)
  have hj1 : j < (modifyAt acc i f).length := by
    rw [hlen1]
    exact hj
  have hMA : ∀ k, k < acc.length → ∀ y,
      (y ∈ (getTask (modifyAt (modifyAt acc i f) j g) k).blocks ↔
        y ∈ (getTask acc k).blocks ∨ (k = i ∧ y = (getTask acc j).id)) := by
    intro k hk y
    by_cases hkj : k = j
    · subst hkj
      rw [getTask_modifyAt_self _ k g hj1, hgP]
      by_cases hki : k = i
      · subst hki
        rw [getTask_modifyAt_self acc k f hk, hfM]
        constructor
        · rintro (hy | hy)
          · exact Or.inl hy
          · exact Or.inr ⟨rfl, hy⟩
        · rintro (hy | ⟨h1, hy⟩)
          · exact Or.inl hy
          · exact Or.inr hy
      · rw [getTask_modifyAt_ne acc i f k hki]
        constructor
        · exact Or.inl
        · rintro (hy | ⟨h1, hy⟩)
          · exact hy
          · exact absurd h1 hki
    · rw [getTask_modifyAt_ne _ j g k hkj]
      by_cases hki : k = i
      · subst hki
        rw [getTask_modifyAt_self acc k f hk, hfM]
        constructor
        · rintro (hy | hy)
          · exact Or.inl hy
          · exact Or.inr ⟨rfl, hy⟩
        · rintro (hy | ⟨h1, hy⟩)
          · exact Or.inl hy
          · exact Or.inr hy
      · rw [getTask_modifyAt_ne acc i f k hki]
        constructor
        · exact Or.inl
        · rintro (hy | ⟨h1, hy⟩)
          · exact hy
          · exact absurd h1 hki
  have hMB : ∀ k, k < acc.length → ∀ y,
      (y ∈ (getTask (modifyAt (modifyAt acc i f) j g) k).blocked_by ↔
        y ∈ (getTask acc k).blocked_by ∨ (k = j ∧ y = (getTask acc i).id)) := by
    intro k hk y
    have hpres : (getTask (modifyAt acc i f) k).blocked_by = (getTask acc k).blocked_by := by
      by_cases hki : k = i
      · subst hki
        rw [getTask_modifyAt_self acc k f hk, hfP]
      · rw [getTask_modifyAt_ne acc i f k hki]
    by_cases hkj : k = j
    · subst hkj
      rw [getTask_modifyAt_self _ k g hj1, hgM, hpres]
      constructor
      · rintro (hy | hy)
        · exact Or.inl hy
        · exact Or.inr ⟨rfl, hy⟩
      · rintro (hy | ⟨h1, hy⟩)
        · exact Or.inl hy
        · exact Or.inr hy
    · rw [getTask_modifyAt_ne _ j g k hkj, hpres]
      constructor
      · exact Or.inl
      · rintro (hy | ⟨h1, hy⟩)
        · exact hy
        · exact absurd h1 hkj
  have hND : ∀ k, k < acc.length →
      (getTask (modifyAt (modifyAt acc i f) j g) k).blocks.Nodup ∧
      (getTask (modifyAt (modifyAt acc i f) j g) k).blocked_by.Nodup := by
    intro k hk
    have hknd := hnde (getTask acc k) ((mem_iff_getTask acc _).mpr ⟨k, hk, rfl⟩)
    have hA : (getTask (modifyAt (modifyAt acc i f) j g) k).blocks.Nodup := by
      by_cases hkj : k = j
      · subst hkj
        rw [getTask_modifyAt_self _ k g hj1, hgP]
        by_cases hki : k = i
        · subst hki
          rw [getTask_modifyAt_self acc k f hk]
          exact hfnd _ hknd.1
        · rw [getTask_modifyAt_ne acc i f k hki]
          exact hknd.1
      · rw [getTask_modifyAt_ne _ j g k hkj]
        by_cases hki : k = i
        · subst hki
          rw [getTask_modifyAt_self acc k f hk]
          exact hfnd _ hknd.1
        · rw [getTask_modifyAt_ne acc i f k hki]
          exact hknd.1
    have hBnd : (getTask (modifyAt (modifyAt acc i f) j g) k).blocked_by.Nodup := by
      have hpres : (getTask (modifyAt acc i f) k).blocked_by = (getTask acc k).blocked_by := by
        by_cases hki : k = i
        · subst hki
          rw [getTask_modifyAt_self acc k f hk, hfP]
        · rw [getTask_modifyAt_ne acc i f k hki]
      by_cases hkj : k = j
      · subst hkj
        rw [getTask_modifyAt_self _ k g hj1]
        refine hgnd _ ?_
        rw [hpres]
        exact hknd.2
      · rw [getTask_modifyAt_ne _ j g k hkj, hpres]
        exact hknd.2
    exact ⟨hA, hBnd⟩
  refine ⟨⟨?_, ?_, ?_⟩, hlen⟩
  · rw [NodupIds, hmap]
    exact hids
  · rw [nodupEdges_iff_pos]
    intro k hk
    rw [hlen] at hk
    exact hND k hk
  · rw [edgeSym_iff_pos]
    intro k hk m hm
    rw [hlen] at hk hm
    rw [hId k, hId m]
    rw [hMA k hk, hMB m hm]
    have hsp := (edgeSym_iff_pos acc).mp hsym k hk m hm
    constructor
    · rintro (hy | ⟨hkE, hyE⟩)
      · exact Or.inl (hsp.mp hy)
      · exact Or.inr ⟨pos_id_unique acc hids m j hm hj hyE, by rw [hkE]⟩
    · rintro (hy | ⟨hmE, hyE⟩)
      · exact Or.inl (hsp.mpr hy)
      · exact Or.inr ⟨pos_id_unique acc hids k i hk hi hyE, by rw [hmE]⟩

theorem wf_two_addBB (acc : List Task) (i j : Nat) (f g : Task → Task)
    (hi : i < acc.length) (hj : j < acc.length)
    (hfid : ∀ t, (f t).id = t.id)
    (hfP : ∀ t, (f t).blocks = t.blocks)
    (hfM : ∀ t y, y ∈ (f t).blocked_by ↔ y ∈ t.blocked_by ∨ y = (getTask acc j).id)
    (hfnd : ∀ t, t.blocked_by.Nodup → (f t).blocked_by.Nodup)
    (hgid : ∀ u, (g u).id = u.id)
    (hgP : ∀ u, (g u).blocked_by = u.blocked_by)
    (hgM : ∀ u y, y ∈ (g u).blocks ↔ y ∈ u.blocks ∨ y = (getTask acc i).id)
    (hgnd : ∀ u, u.blocks.Nodup → (g u).blocks.Nodup)
    (h : WF acc) :
    WF (modifyAt (modifyAt acc i f) j g) ∧
      (modifyAt (modifyAt acc i f) j g).length = acc.length := by
  obtain ⟨hids, hnde, hsym⟩ := h
  have hlen1 : (modifyAt acc i f).length = acc.length := modifyAt_length acc i f
  have hlen : (modifyAt (modifyAt acc i f) j g).length = acc.length :=
    (modifyAt_length _ j g).trans hlen1
  have hId : ∀ k, (getTask (modifyAt (modifyAt acc i f) j g) k).id =
      (getTask acc k).id := fun k =>
    (getTask_modifyAt_id _ j g hgid k).trans (getTask_modifyAt_id acc i f hfid k)
  have hmap : (modifyAt (modifyAt acc i f) j g).map Task.id = acc.map Task.id :=
    (map_id_modifyAt _ j g hgid).trans (map_id_modifyAt acc i f hfid)
  have hj1 : j < (modifyAt acc i f).length := by
    rw [hlen1]
    exact hj
  have hMA : ∀ k, k < acc.length → ∀ y,
      (y ∈ (getTask (modifyAt (modifyAt acc i f) j g) k).blocked_by ↔
        y ∈ (getTask acc k).blocked_by ∨ (k = i ∧ y = (getTask acc j).id)) := by
    intro k hk y
    by_cases hkj : k = j
    · subst hkj
      rw [getTask_modifyAt_self _ k g hj1, hgP]
      by_cases hki : k = i
      · subst hki
        rw [getTask_modifyAt_self acc k f hk, hfM]
        constructor
        · rintro (hy | hy)
          · exact Or.inl hy
          · exact Or.inr ⟨rfl, hy⟩
        · rintro (hy | ⟨h1, hy⟩)
          · exact Or.inl hy
          · exact Or.inr hy
      · rw [getTask_modifyAt_ne acc i f k hki]
        constructor
        · exact Or.inl
        · rintro (hy | ⟨h1, hy⟩)
          · exact hy
          · exact absurd h1 hki
    · rw [getTask_modifyAt_ne _ j g k hkj]
      by_cases hki : k = i
      · subst hki
        rw [getTask_modifyAt_self acc k f hk, hfM]
        constructor
        · rintro (hy | hy)
          · exact Or.inl hy
          · exact Or.inr ⟨rfl, hy⟩
        · rintro (hy | ⟨h1, hy⟩)
          · exact Or.inl hy
          · exact Or.inr hy
      · rw [getTask_modifyAt_ne acc i f k hki]
        constructor
        · exact Or.inl
        · rintro (hy | ⟨h1, hy⟩)
          · exact hy
          · exact absurd h1 hki
  have hMB : ∀ k, k < acc.length → ∀ y,
      (y ∈ (getTask (modifyAt (modifyAt acc i f) j g) k).blocks ↔
        y ∈ (getTask acc k).blocks ∨ (k = j ∧ y = (getTask acc i).id)) := by
    intro k hk y
    have hpres : (getTask (modifyAt acc i f) k).blocks = (getTask acc k).blocks := by
      by_cases hki : k = i
      · subst hki
        rw [getTask_modifyAt_self acc k f hk, hfP]
      · rw [getTask_modifyAt_ne acc i f k hki]
    by_cases hkj : k = j
    · subst hkj
      rw [getTask_modifyAt_self _ k g hj1, hgM, hpres]
      constructor
      · rintro (hy | hy)
        · exact Or.inl hy
        · exact Or.inr ⟨rfl, hy⟩
      · rintro (hy | ⟨h1, hy⟩)
        · exact Or.inl hy
        · exact Or.inr hy
    · rw [getTask_modifyAt_ne _ j g k hkj, hpres]
      constructor
      · exact Or.inl
      · rintro (hy | ⟨h1, hy⟩)
        · exact hy
        · exact absurd h1 hkj
  have hND : ∀ k, k < acc.length →
      (getTask (modifyAt (modifyAt acc i f) j g) k).blocks.Nodup ∧
      (getTask (modifyAt (modifyAt acc i f) j g) k).blocked_by.Nodup := by
    intro k hk
    have hknd := hnde (getTask acc k) ((mem_iff_getTask acc _).mpr ⟨k, hk, rfl⟩)
    have hA : (getTask (modifyAt (modifyAt acc i f) j g) k).blocked_by.Nodup := by
      by_cases hkj : k = j
      · subst hkj
        rw [getTask_modifyAt_self _ k g hj1, hgP]
        by_cases hki : k = i
        · subst hki
          rw [getTask_modifyAt_self acc k f hk]
          exact hfnd _ hknd.2
        · rw [getTask_modifyAt_ne acc i f k hki]
          exact hknd.2
      · rw [getTask_modifyAt_ne _ j g k hkj]
        by_cases hki : k = i
        · subst hki
          rw [getTask_modifyAt_self acc k f hk]
          exact hfnd _ hknd.2
        · rw [getTask_modifyAt_ne acc i f k hki]
          exact hknd.2
    have hBnd : (getTask (modifyAt (modifyAt acc i f) j g) k).blocks.Nodup := by
      have hpres : (getTask (modifyAt acc i f) k).blocks = (getTask acc k).blocks := by
        by_cases hki : k = i
        · subst hki
          rw [getTask_modifyAt_self acc k f hk, hfP]
        · rw [getTask_modifyAt_ne acc i f k hki]
      by_cases hkj : k = j
      · subst hkj
        rw [getTask_modifyAt_self _ k g hj1]
        refine hgnd _ ?_
        rw [hpres]
        exact hknd.1
      · rw [getTask_modifyAt_ne _ j g k hkj, hpres]
        exact hknd.1
    exact ⟨hBnd, hA⟩
  refine ⟨⟨?_, ?_, ?_⟩, hlen⟩
  · rw [NodupIds, hmap]
    exact hids
  · rw [nodupEdges_iff_pos]
    intro k hk
    rw [hlen] at hk
    exact hND k hk
  · rw [edgeSym_iff_pos]
    intro k hk m hm
    rw [hlen] at hk hm
    rw [hId k, hId m]
    rw [hMB k hk, hMA m hm]
    have hsp := (edgeSym_iff_pos acc).mp hsym k hk m hm
    constructor
    · rintro (hy | ⟨hkE, hyE⟩)
      · exact Or.inl (hsp.mp hy)
      · exact Or.inr ⟨pos_id_unique acc hids m i hm hi hyE, by rw [hkE]⟩
    · rintro (hy | ⟨hmE, hyE⟩)
      · exact Or.inl (hsp.mpr hy)
      · exact Or.inr ⟨pos_id_unique acc hids k j hk hj hyE, by rw [hmE]⟩

theorem wf_two_removeB (acc : List Task) (i j : Nat) (f g : Task → Task)
    (hi : i < acc.length) (hj : j < acc.length)
    (hfid : ∀ t, (f t).id = t.id)
    (hfP : ∀ t, (f t).blocked_by = t.blocked_by)
    (hfM : ∀ t, t.blocks.Nodup → ∀ y,
      (y ∈ (f t).blocks ↔ y ∈ t.blocks ∧ y ≠ (getTask acc j).id))
    (hfnd : ∀ t, t.blocks.Nodup → (f t).blocks.Nodup)
    (hgid : ∀ u, (g u).id = u.id)
    (hgP : ∀ u, (g u).blocks = u.blocks)
    (hgM : ∀ u, u.blocked_by.Nodup → ∀ y,
      (y ∈ (g u).blocked_by ↔ y ∈ u.blocked_by ∧ y ≠ (getTask acc i).id))
    (hgnd : ∀ u, u.blocked_by.Nodup → (g u).blocked_by.Nodup)
    (h : WF acc) :
    WF (modifyAt (modifyAt acc i f) j g) ∧
      (modifyAt (modifyAt acc i f) j g).length = acc.length := by
  obtain ⟨hids, hnde, hsym⟩ := h
  have hlen1 : (modifyAt acc i f).length = acc.length := modifyAt_length acc i f
  have hlen : (modifyAt (modifyAt acc i f) j g).length = acc.length :=
    (modifyAt_length _ j g).trans hlen1
  have hId : ∀ k, (getTask (modifyAt (modifyAt acc i f) j g) k).id =
      (getTask acc k).id := fun k =>
    (getTask_modifyAt_id _ j g hgid k).trans (getTask_modifyAt_id acc i f hfid k)
  have hmap : (modifyAt (modifyAt acc i f) j g).map Task.id = acc.map Task.id :=
    (map_id_modifyAt _ j g hgid).trans (map_id_modifyAt acc i f hfid)
  have hj1 : j < (modifyAt acc i f).length := by
    rw [hlen1]
    exact hj
  have hMA : ∀ k, k < acc.length → ∀ y,
      (y ∈ (getTask (modifyAt (modifyAt acc i f) j g) k).blocks ↔
        y ∈ (getTask acc k).blocks ∧ ¬(k = i ∧ y = (getTask acc j).id)) := by
    intro k hk y
    have hknd := hnde (getTask acc k) ((mem_iff_getTask acc _).mpr ⟨k, hk, rfl⟩)
    by_cases hkj : k = j
    · subst hkj
      rw [getTask_modifyAt_self _ k g hj1, hgP]
      by_cases hki : k = i
      · subst hki
        rw [getTask_modifyAt_self acc k f hk, hfM _ hknd.1]
        constructor
        · rintro ⟨hy1, hy2⟩
          exact ⟨hy1, fun hc => hy2 hc.2⟩
        · rintro ⟨hy1, hn⟩
          exact ⟨hy1, fun he => hn ⟨rfl, he⟩⟩
      · rw [getTask_modifyAt_ne acc i f k hki]
        constructor
        · intro hy
          exact ⟨hy, fun hc => hki hc.1⟩
        · exact And.left
    · rw [getTask_modifyAt_ne _ j g k hkj]
      by_cases hki : k = i
      · subst hki
        rw [getTask_modifyAt_self acc k f hk, hfM _ hknd.1]
        constructor
        · rintro ⟨hy1, hy2⟩
          exact ⟨hy1, fun hc => hy2 hc.2⟩
        · rintro ⟨hy1, hn⟩
          exact ⟨hy1, fun he => hn ⟨rfl, he⟩⟩
      · rw [getTask_modifyAt_ne acc i f k hki]
        constructor
        · intro hy
          exact ⟨hy, fun hc => hki hc.1⟩
        · exact And.left
  have hMB : ∀ k, k < acc.length → ∀ y,
      (y ∈ (getTask (modifyAt (modifyAt acc i f) j g) k).blocked_by ↔
        y ∈ (getTask acc k).blocked_by ∧ ¬(k = j ∧ y = (getTask acc i).id)) := by
    intro k hk y
    have hknd := hnde (getTask acc k) ((mem_iff_getTask acc _).mpr ⟨k, hk, rfl⟩)
    have hpres : (getTask (modifyAt acc i f) k).blocked_by = (getTask acc k).blocked_by := by
      by_cases hki : k = i
      · subst hki
        rw [getTask_modifyAt_self acc k f hk, hfP]
      · rw [getTask_modifyAt_ne acc i f k hki]
    by_cases hkj : k = j
    · subst hkj
      have hnd2 : (getTask (modifyAt acc i f) k).blocked_by.Nodup := by
        rw [hpres]
        exact hknd.2
      rw [getTask_modifyAt_self _ k g hj1, hgM _ hnd2, hpres]
      constructor
      · rintro ⟨hy1, hy2⟩
        exact ⟨hy1, fun hc => hy2 hc.2⟩
      · rintro ⟨hy1, hn⟩
        exact ⟨hy1, fun he => hn ⟨rfl, he⟩⟩
    · rw [getTask_modifyAt_ne _ j g k hkj, hpres]
      constructor
      · intro hy
        exact ⟨hy, fun hc => hkj hc.1⟩
      · exact And.left
  have hND : ∀ k, k < acc.length →
      (getTask (modifyAt (modifyAt acc i f) j g) k).blocks.Nodup ∧
      (getTask (modifyAt (modifyAt acc i f) j g) k).blocked_by.Nodup := by
    intro k hk
    have hknd := hnde (getTask acc k) ((mem_iff_getTask acc _).mpr ⟨k, hk, rfl⟩)
    have hA : (getTask (modifyAt (modifyAt acc i f) j g) k).blocks.Nodup := by
      by_cases hkj : k = j
      · subst hkj
        rw [getTask_modifyAt_self _ k g hj1, hgP]
        by_cases hki : k = i
        · subst hki
          rw [getTask_modifyAt_self acc k f hk]
          exact hfnd _ hknd.1
        · rw [getTask_modifyAt_ne acc i f k hki]
          exact hknd.1
      · rw [getTask_modifyAt_ne _ j g k hkj]
        by_cases hki : k = i
        · subst hki
          rw [getTask_modifyAt_self acc k f hk]
          exact hfnd _ hknd.1
        · rw [getTask_modifyAt_ne acc i f k hki]
          exact hknd.1
    have hBnd : (getTask (modifyAt (modifyAt acc i f) j g) k).blocked_by.Nodup := by
      have hpres : (getTask (modifyAt acc i f) k).blocked_by = (getTask acc k).blocked_by := by
        by_cases hki : k = i
        · subst hki
          rw [getTask_modifyAt_self acc k f hk, hfP]
        · rw [getTask_modifyAt_ne acc i f k hki]
      by_cases hkj : k = j
      · subst hkj
        rw [getTask_modifyAt_self _ k g hj1]
        refine hgnd _ ?_
        rw [hpres]
        exact hknd.2
      · rw [getTask_modifyAt_ne _ j g k hkj, hpres]
        exact hknd.2
    exact ⟨hA, hBnd⟩
  refine ⟨⟨?_, ?_, ?_⟩, hlen⟩
  · rw [NodupIds, hmap]
    exact hids
  · rw [nodupEdges_iff_pos]
    intro k hk
    rw [hlen] at hk
    exact hND k hk
  · rw [edgeSym_iff_pos]
    intro k hk m hm
    rw [hlen] at hk hm
    rw [hId k, hId m]
    rw [hMA k hk, hMB m hm]
    have hsp := (edgeSym_iff_pos acc).mp hsym k hk m hm
    constructor
    · rintro ⟨hy, hn⟩
      refine ⟨hsp.mp hy, fun hE => hn ?_⟩
      obtain ⟨hmE, hyE⟩ := hE
      exact ⟨pos_id_unique acc hids k i hk hi hyE, by rw [hmE]⟩
    · rintro ⟨hy, hn⟩
      refine ⟨hsp.mpr hy, fun hE => hn ?_⟩
      obtain ⟨hkE, hyE⟩ := hE
      exact ⟨pos_id_unique acc hids m j hm hj hyE, by rw [hkE]⟩

theorem wf_two_removeBB (acc : List Task) (i j : Nat) (f g : Task → Task)
    (hi : i < acc.length) (hj : j < acc.length)
    (hfid : ∀ t, (f t).id = t.id)
    (hfP : ∀ t, (f t).blocks = t.blocks)
    (hfM : ∀ t, t.blocked_by.Nodup → ∀ y,
      (y ∈ (f t).blocked_by ↔ y ∈ t.blocked_by ∧ y ≠ (getTask acc j).id))
    (hfnd : ∀ t, t.blocked_by.Nodup → (f t).blocked_by.Nodup)
    (hgid : ∀ u, (g u).id = u.id)
    (hgP : ∀ u, (g u).blocked_by = u.blocked_by)
    (hgM : ∀ u, u.blocks.Nodup → ∀ y,
      (y ∈ (g u).blocks ↔ y ∈ u.blocks ∧ y ≠ (getTask acc i).id))
    (hgnd : ∀ u, u.blocks.Nodup → (g u).blocks.Nodup)
    (h : WF acc) :
    WF (modifyAt (modifyAt acc i f) j g) ∧
      (modifyAt (modifyAt acc i f) j g).length = acc.length := by
  obtain ⟨hids, hnde, hsym⟩ := h
  have hlen1 : (modifyAt acc i f).length = acc.length := modifyAt_length acc i f
  have hlen : (modifyAt (modifyAt acc i f) j g).length = acc.length :=
    (modifyAt_length _ j g).trans hlen1
  have hId : ∀ k, (getTask (modifyAt (modifyAt acc i f) j g) k).id =
      (getTask acc k).id := fun k =>
    (getTask_modifyAt_id _ j g hgid k).trans (getTask_modifyAt_id acc i f hfid k)
  have hmap : (modifyAt (modifyAt acc i f) j g).map Task.id = acc.map Task.id :=
    (map_id_modifyAt _ j g hgid).trans (map_id_modifyAt acc i f hfid)
  have hj1 : j < (modifyAt acc i f).length := by
    rw [hlen1]
    exact hj
  have hMA : ∀ k, k < acc.length → ∀ y,
      (y ∈ (getTask (modifyAt (modifyAt acc i f) j g) k).blocked_by ↔
        y ∈ (getTask acc k).blocked_by ∧ ¬(k = i ∧ y = (getTask acc j).id)) := by
    intro k hk y
    have hknd := hnde (getTask acc k) ((mem_iff_getTask acc _).mpr ⟨k, hk, rfl⟩)
    by_cases hkj : k = j
    · subst hkj
      rw [getTask_modifyAt_self _ k g hj1, hgP]
      by_cases hki : k = i
      · subst hki
        rw [getTask_modifyAt_self acc k f hk, hfM _ hknd.2]
        constructor
        · rintro ⟨hy1, hy2⟩
          exact ⟨hy1, fun hc => hy2 hc.2⟩
        · rintro ⟨hy1, hn⟩
          exact ⟨hy1, fun he => hn ⟨rfl, he⟩⟩
      · rw [getTask_modifyAt_ne acc i f k hki]
        constructor
        · intro hy
          exact ⟨hy, fun hc => hki hc.1⟩
        · exact And.left
    · rw [getTask_modifyAt_ne _ j g k hkj]
      by_cases hki : k = i
      · subst hki
        rw [getTask_modifyAt_self acc k f hk, hfM _ hknd.2]
        constructor
        · rintro ⟨hy1, hy2⟩
          exact ⟨hy1, fun hc => hy2 hc.2⟩
        · rintro ⟨hy1, hn⟩
          exact ⟨hy1, fun he => hn ⟨rfl, he⟩⟩
      · rw [getTask_modifyAt_ne acc i f k hki]
        constructor
        · intro hy
          exact ⟨hy, fun hc => hki hc.1⟩
        · exact And.left
  have hMB : ∀ k, k < acc.length → ∀ y,
      (y ∈ (getTask (modifyAt (modifyAt acc i f) j g) k).blocks ↔
        y ∈ (getTask acc k).blocks ∧ ¬(k = j ∧ y = (getTask acc i).id)) := by
    intro k hk y
    have hknd := hnde (getTask acc k) ((mem_iff_getTask acc _).mpr ⟨k, hk, rfl⟩)
    have hpres : (getTask (modifyAt acc i f) k).blocks = (getTask acc k).blocks := by
      by_cases hki : k = i
      · subst hki
        rw [getTask_modifyAt_self acc k f hk, hfP]
      · rw [getTask_modifyAt_ne acc i f k hki]
    by_cases hkj : k = j
    · subst hkj
      have hnd2 : (getTask (modifyAt acc i f) k).blocks.Nodup := by
        rw [hpres]
        exact hknd.1
      rw [getTask_modifyAt_self _ k g hj1, hgM _ hnd2, hpres]
      constructor
      · rintro ⟨hy1, hy2⟩
        exact ⟨hy1, fun hc => hy2 hc.2⟩
      · rintro ⟨hy1, hn⟩
        exact ⟨hy1, fun he => hn ⟨rfl, he⟩⟩
    · rw [getTask_modifyAt_ne _ j g k hkj, hpres]
      constructor
      · intro hy
        exact ⟨hy, fun hc => hkj hc.1⟩
      · exact And.left
  have hND : ∀ k, k < acc.length →
      (getTask (modifyAt (modifyAt acc i f) j g) k).blocks.Nodup ∧
      (getTask (modifyAt (modifyAt acc i f) j g) k).blocked_by.Nodup := by
    intro k hk
    have hknd := hnde (getTask acc k) ((mem_iff_getTask acc _).mpr ⟨k, hk, rfl⟩)
    have hA : (getTask (modifyAt (modifyAt acc i f) j g) k).blocked_by.Nodup := by
      by_cases hkj : k = j
      · subst hkj
        rw [getTask_modifyAt_self _ k g hj1, hgP]
        by_cases hki : k = i
        · subst hki
          rw [getTask_modifyAt_self acc k f hk]
          exact hfnd _ hknd.2
        · rw [getTask_modifyAt_ne acc i f k hki]
          exact hknd.2
      · rw [getTask_modifyAt_ne _ j g k hkj]
        by_cases hki : k = i
        · subst hki
          rw [getTask_modifyAt_self acc k f hk]
          exact hfnd _ hknd.2
        · rw [getTask_modifyAt_ne acc i f k hki]
          exact hknd.2
    have hBnd : (getTask (modifyAt (modifyAt acc i f) j g) k).blocks.Nodup := by
      have hpres : (getTask (modifyAt acc i f) k).blocks = (getTask acc k).blocks := by
        by_cases hki : k = i
        · subst hki
          rw [getTask_modifyAt_self acc k f hk, hfP]
        · rw [getTask_modifyAt_ne acc i f k hki]
      by_cases hkj : k = j
      · subst hkj
        rw [getTask_modifyAt_self _ k g hj1]
        refine hgnd _ ?_
        rw [hpres]
        exact hknd.1
      · rw [getTask_modifyAt_ne _ j g k hkj, hpres]
        exact hknd.1
    exact ⟨hBnd, hA⟩
  refine ⟨⟨?_, ?_, ?_⟩, hlen⟩
  · rw [NodupIds, hmap]
    exact hids
  · rw [nodupEdges_iff_pos]
    intro k hk
    rw [hlen] at hk
    exact hND k hk
  · rw [edgeSym_iff_pos]
    intro k hk m hm
    rw [hlen] at hk hm
    rw [hId k, hId m]
    rw [hMB k hk, hMA m hm]
    have hsp := (edgeSym_iff_pos acc).mp hsym k hk m hm
    constructor
    · rintro ⟨hy, hn⟩
      refine ⟨hsp.mp hy, fun hE => hn ?_⟩
      obtain ⟨hmE, hyE⟩ := hE
      exact ⟨pos_id_unique acc hids k j hk hj hyE, by rw [hmE]⟩
    · rintro ⟨hy, hn⟩
      refine ⟨hsp.mpr hy, fun hE => hn ?_⟩
      obtain ⟨hkE, hyE⟩ := hE
      exact ⟨pos_id_unique acc hids m i hm hi hyE, by rw [hkE]⟩

theorem addBlocksOne_eq (i : Nat) (now : Str) (acc : List Task) (pfx : Str) (j : Nat)
    (hm : firstMatchIdx pfx acc = some j) :
    addBlocksOne i now acc pfx =
      (modifyAt (modifyAt acc i (fun t => if (getTask acc j).id ∈ t.blocks then t else { t with blocks := t.blocks ++ [(getTask acc j).id] })) j (fun u => if (getTask acc i).id ∈ u.blocked_by then u else { u with blocked_by := u.blocked_by ++ [(getTask acc i).id], updated_at := now, status := if u.status = "done".data ∨ u.status = "blocked".data then u.status else "blocked".data }), true) := by
  unfold addBlocksOne
  rw [hm]

theorem addBlockedByOne_eq (i : Nat) (now : Str) (acc : List Task) (pfx : Str) (j : Nat)
    (hm : firstMatchIdx pfx acc = some j) :
    addBlockedByOne i now acc pfx =
      (modifyAt (modifyAt acc i (fun t => if (getTask acc j).id ∈ t.blocked_by then t else { t with blocked_by := t.blocked_by ++ [(getTask acc j).id], status := if t.status = "done".data ∨ t.status = "blocked".data then t.status else "blocked".data })) j (fun u => if (getTask acc i).id ∈ u.blocks then u else { u with blocks := u.blocks ++ [(getTask acc i).id], updated_at := now }), true) := by
  unfold addBlockedByOne
  rw [hm]

theorem removeBlocksOne_eq (i : Nat) (now : Str) (acc : List Task) (pfx : Str) (j : Nat)
    (hm : firstMatchIdx pfx acc = some j) :
    removeBlocksOne i now acc pfx =
      (modifyAt (modifyAt acc i (fun t => if (getTask acc j).id ∈ t.blocks then { t with blocks := t.blocks.erase (getTask acc j).id } else t)) j (unblockStep (getTask acc i).id now), true) := by
  unfold removeBlocksOne
  rw [hm]

theorem removeBlockedByOne_eq (i : Nat) (now : Str) (acc : List Task) (pfx : Str) (j : Nat)
    (hm : firstMatchIdx pfx acc = some j) :
    removeBlockedByOne i now acc pfx =
      (modifyAt (modifyAt acc i (fun t => if (getTask acc j).id ∈ t.blocked_by then { t with blocked_by := t.blocked_by.erase (getTask acc j).id, status := if t.blocked_by.erase (getTask acc j).id = [] ∧ t.status = "blocked".data then "open".data else t.status } else t)) j (fun u => if (getTask acc i).id ∈ u.blocks then { u with blocks := u.blocks.erase (getTask acc i).id, updated_at := now } else u), true) := by
  unfold removeBlockedByOne
  rw [hm]

theorem addBlocksOne_wf (i : Nat) (now : Str) (acc : List Task) (pfx : Str)
    (hi : i < acc.length) (h : WF acc) :
    WF (addBlocksOne i now acc pfx).1 ∧
      (addBlocksOne i now acc pfx).1.length = acc.length := by
  rcases hm : firstMatchIdx pfx acc with _ | j
  · have heq : (addBlocksOne i now acc pfx).1 = acc := by
      unfold addBlocksOne
      rw [hm]
    rw [heq]
    exact ⟨h, rfl⟩
  · obtain ⟨hj, hjpre⟩ := firstMatchIdx_some pfx acc j hm
    rw [addBlocksOne_eq i now acc pfx j hm]
    have hfid : ∀ t : Task, (if (getTask acc j).id ∈ t.blocks then t else { t with blocks := t.blocks ++ [(getTask acc j).id] }).id = t.id := by
      intro t
      by_cases hc : (getTask acc j).id ∈ t.blocks
      · rw [if_pos hc]
      · rw [if_neg hc]
    have hfP : ∀ t : Task, (if (getTask acc j).id ∈ t.blocks then t else { t with blocks := t.blocks ++ [(getTask acc j).id] }).blocked_by = t.blocked_by := by
      intro t
      by_cases hc : (getTask acc j).id ∈ t.blocks
      · rw [if_pos hc]
      · rw [if_neg hc]
    have hfM : ∀ t : Task, ∀ y, (y ∈ (if (getTask acc j).id ∈ t.blocks then t else { t with blocks := t.blocks ++ [(getTask acc j).id] }).blocks ↔
        y ∈ t.blocks ∨ y = (getTask acc j).id) := by
      intro t y
      by_cases hc : (getTask acc j).id ∈ t.blocks
      · rw [if_pos hc]
        constructor
        · exact Or.inl
        · rintro (hy | rfl)
          · exact hy
          · exact hc
      · rw [if_neg hc]
        show y ∈ t.blocks ++ [(getTask acc j).id] ↔ _
        rw [List.mem_append, List.mem_singleton]
    have hfnd : ∀ t : Task, t.blocks.Nodup → (if (getTask acc j).id ∈ t.blocks then t else { t with blocks := t.blocks ++ [(getTask acc j).id] }).blocks.Nodup := by
      intro t hnd
      by_cases hc : (getTask acc j).id ∈ t.blocks
      · rw [if_pos hc]
        exact hnd
      · rw [if_neg hc]
        show (t.blocks ++ [(getTask acc j).id]).Nodup
        exact hnd.append (List.nodup_singleton _)
          (fun a ha hb => hc (List.mem_singleton.mp hb ▸ ha))
    have hgid : ∀ u : Task, (if (getTask acc i).id ∈ u.blocked_by then u else { u with blocked_by := u.blocked_by ++ [(getTask acc i).id], updated_at := now, status := if u.status = "done".data ∨ u.status = "blocked".data then u.status else "blocked".data }).id = u.id := by
      intro u
      by_cases hc : (getTask acc i).id ∈ u.blocked_by
      · rw [if_pos hc]
      · rw [if_neg hc]
    have hgP : ∀ u : Task, (if (getTask acc i).id ∈ u.blocked_by then u else { u with blocked_by := u.blocked_by ++ [(getTask acc i).id], updated_at := now, status := if u.status = "done".data ∨ u.status = "blocked".data then u.status else "blocked".data }).blocks = u.blocks := by
      intro u
      by_cases hc : (getTask acc i).id ∈ u.blocked_by
      · rw [if_pos hc]
      · rw [if_neg hc]
    have hgM : ∀ u : Task, ∀ y, (y ∈ (if (getTask acc i).id ∈ u.blocked_by then u else { u with blocked_by := u.blocked_by ++ [(getTask acc i).id], updated_at := now, status := if u.status = "done".data ∨ u.status = "blocked".data then u.status else "blocked".data }).blocked_by ↔
        y ∈ u.blocked_by ∨ y = (getTask acc i).id) := by
      intro u y
      by_cases hc : (getTask acc i).id ∈ u.blocked_by
      · rw [if_pos hc]
        constructor
        · exact Or.inl
        · rintro (hy | rfl)
          · exact hy
          · exact hc
      · rw [if_neg hc]
        show y ∈ u.blocked_by ++ [(getTask acc i).id] ↔ _
        rw [List.mem_append, List.mem_singleton]
    have hgnd : ∀ u : Task, u.blocked_by.Nodup → (if (getTask acc i).id ∈ u.blocked_by then u else { u with blocked_by := u.blocked_by ++ [(getTask acc i).id], updated_at := now, status := if u.status = "done".data ∨ u.status = "blocked".data then u.status else "blocked".data }).blocked_by.Nodup := by
      intro u hnd
      by_cases hc : (getTask acc i).id ∈ u.blocked_by
      · rw [if_pos hc]
        exact hnd
      · rw [if_neg hc]
        show (u.blocked_by ++ [(getTask acc i).id]).Nodup
        exact hnd.append (List.nodup_singleton _)
          (fun a ha hb => hc (List.mem_singleton.mp hb ▸ ha))
    exact wf_two_addB acc i j _ _ hi hj hfid hfP hfM hfnd hgid hgP hgM hgnd h

theorem addBlockedByOne_wf (i : Nat) (now : Str) (acc : List Task) (pfx : Str)
    (hi : i < acc.length) (h : WF acc) :
    WF (addBlockedByOne i now acc pfx).1 ∧
      (addBlockedByOne i now acc pfx).1.length = acc.length := by
  rcases hm : firstMatchIdx pfx acc with _ | j
  · have heq : (addBlockedByOne i now acc pfx).1 = acc := by
      unfold addBlockedByOne
      rw [hm]
    rw [heq]
    exact ⟨h, rfl⟩
  · obtain ⟨hj, hjpre⟩ := firstMatchIdx_some pfx acc j hm
    rw [addBlockedByOne_eq i now acc pfx j hm]
    have hfid : ∀ t : Task, (if (getTask acc j).id ∈ t.blocked_by then t else { t with blocked_by := t.blocked_by ++ [(getTask acc j).id], status := if t.status = "done".data ∨ t.status = "blocked".data then t.status else "blocked".data }).id = t.id := by
      intro t
      by_cases hc : (getTask acc j).id ∈ t.blocked_by
      · rw [if_pos hc]
      · rw [if_neg hc]
    have hfP : ∀ t : Task, (if (getTask acc j).id ∈ t.blocked_by then t else { t with blocked_by := t.blocked_by ++ [(getTask acc j).id], status := if t.status = "done".data ∨ t.status = "blocked".data then t.status else "blocked".data }).blocks = t.blocks := by
      intro t
      by_cases hc : (getTask acc j).id ∈ t.blocked_by
      · rw [if_pos hc]
      · rw [if_neg hc]
    have hfM : ∀ t : Task, ∀ y, (y ∈ (if (getTask acc j).id ∈ t.blocked_by then t else { t with blocked_by := t.blocked_by ++ [(getTask acc j).id], status := if t.status = "done".data ∨ t.status = "blocked".data then t.status else "blocked".data }).blocked_by ↔
        y ∈ t.blocked_by ∨ y = (getTask acc j).id) := by
      intro t y
      by_cases hc : (getTask acc j).id ∈ t.blocked_by
      · rw [if_pos hc]
        constructor
        · exact Or.inl
        · rintro (hy | rfl)
          · exact hy
          · exact hc
      · rw [if_neg hc]
        show y ∈ t.blocked_by ++ [(getTask acc j).id] ↔ _
        rw [List.mem_append, List.mem_singleton]
    have hfnd : ∀ t : Task, t.blocked_by.Nodup → (if (getTask acc j).id ∈ t.blocked_by then t else { t with blocked_by := t.blocked_by ++ [(getTask acc j).id], status := if t.status = "done".data ∨ t.status = "blocked".data then t.status else "blocked".data }).blocked_by.Nodup := by
      intro t hnd
      by_cases hc : (getTask acc j).id ∈ t.blocked_by
      · rw [if_pos hc]
        exact hnd
      · rw [if_neg hc]
        show (t.blocked_by ++ [(getTask acc j).id]).Nodup
        exact hnd.append (List.nodup_singleton _)
          (fun a ha hb => hc (List.mem_singleton.mp hb ▸ ha))
    have hgid : ∀ u : Task, (if (getTask acc i).id ∈ u.blocks then u else { u with blocks := u.blocks ++ [(getTask acc i).id], updated_at := now }).id = u.id := by
      intro u
      by_cases hc : (getTask acc i).id ∈ u.blocks
      · rw [if_pos hc]
      · rw [if_neg hc]
    have hgP : ∀ u : Task, (if (getTask acc i).id ∈ u.blocks then u else { u with blocks := u.blocks ++ [(getTask acc i).id], updated_at := now }).blocked_by = u.blocked_by := by
      intro u
      by_cases hc : (getTask acc i).id ∈ u.blocks
      · rw [if_pos hc]
      · rw [if_neg hc]
    have hgM : ∀ u : Task, ∀ y, (y ∈ (if (getTask acc i).id ∈ u.blocks then u else { u with blocks := u.blocks ++ [(getTask acc i).id], updated_at := now }).blocks ↔
        y ∈ u.blocks ∨ y = (getTask acc i).id) := by
      intro u y
      by_cases hc : (getTask acc i).id ∈ u.blocks
      · rw [if_pos hc]
        constructor
        · exact Or.inl
        · rintro (hy | rfl)
          · exact hy
          · exact hc
      · rw [if_neg hc]
        show y ∈ u.blocks ++ [(getTask acc i).id] ↔ _
        rw [List.mem_append, List.mem_singleton]
    have hgnd : ∀ u : Task, u.blocks.Nodup → (if (getTask acc i).id ∈ u.blocks then u else { u with blocks := u.blocks ++ [(getTask acc i).id], updated_at := now }).blocks.Nodup := by
      intro u hnd
      by_cases hc : (getTask acc i).id ∈ u.blocks
      · rw [if_pos hc]
        exact hnd
      · rw [if_neg hc]
        show (u.blocks ++ [(getTask acc i).id]).Nodup
        exact hnd.append (List.nodup_singleton _)
          (fun a ha hb => hc (List.mem_singleton.mp hb ▸ ha))
    exact wf_two_addBB acc i j _ _ hi hj hfid hfP hfM hfnd hgid hgP hgM hgnd h

theorem removeBlocksOne_wf (i : Nat) (now : Str) (acc : List Task) (pfx : Str)
    (hi : i < acc.length) (h : WF acc) :
    WF (removeBlocksOne i now acc pfx).1 ∧
      (removeBlocksOne i now acc pfx).1.length = acc.length := by
  rcases hm : firstMatchIdx pfx acc with _ | j
  · have heq : (removeBlocksOne i now acc pfx).1 = acc := by
      unfold removeBlocksOne
      rw [hm]
    rw [heq]
    exact ⟨h, rfl⟩
  · obtain ⟨hj, hjpre⟩ := firstMatchIdx_some pfx acc j hm
    rw [removeBlocksOne_eq i now acc pfx j hm]
    have hfid : ∀ t : Task, (if (getTask acc j).id ∈ t.blocks then { t with blocks := t.blocks.erase (getTask acc j).id } else t).id = t.id := by
      intro t
      by_cases hc : (getTask acc j).id ∈ t.blocks
      · rw [if_pos hc]
      · rw [if_neg hc]
    have hfP : ∀ t : Task, (if (getTask acc j).id ∈ t.blocks then { t with blocks := t.blocks.erase (getTask acc j).id } else t).blocked_by = t.blocked_by := by
      intro t
      by_cases hc : (getTask acc j).id ∈ t.blocks
      · rw [if_pos hc]
      · rw [if_neg hc]
    have hfM : ∀ t : Task, t.blocks.Nodup → ∀ y, (y ∈ (if (getTask acc j).id ∈ t.blocks then { t with blocks := t.blocks.erase (getTask acc j).id } else t).blocks ↔
        y ∈ t.blocks ∧ y ≠ (getTask acc j).id) := by
      intro t hnd y
      by_cases hc : (getTask acc j).id ∈ t.blocks
      · rw [if_pos hc]
        show y ∈ t.blocks.erase (getTask acc j).id ↔ _
        rw [hnd.mem_erase_iff]
        exact and_comm
      · rw [if_neg hc]
        constructor
        · intro hy
          exact ⟨hy, fun he => hc (he ▸ hy)⟩
        · exact And.left
    have hfnd : ∀ t : Task, t.blocks.Nodup → (if (getTask acc j).id ∈ t.blocks then { t with blocks := t.blocks.erase (getTask acc j).id } else t).blocks.Nodup := by
      intro t hnd
      by_cases hc : (getTask acc j).id ∈ t.blocks
      · rw [if_pos hc]
        exact hnd.erase _
      · rw [if_neg hc]
        exact hnd
    have hgid : ∀ u : Task, (unblockStep (getTask acc i).id now u).id = u.id :=
      fun u => unblockStep_id _ _ u
    have hgP : ∀ u : Task, (unblockStep (getTask acc i).id now u).blocks = u.blocks :=
      fun u => unblockStep_blocks _ _ u
    have hgM : ∀ u : Task, u.blocked_by.Nodup → ∀ y,
        (y ∈ (unblockStep (getTask acc i).id now u).blocked_by ↔
          y ∈ u.blocked_by ∧ y ≠ (getTask acc i).id) := by
      intro u hnd y
      rw [unblockStep_blocked_by, hnd.mem_erase_iff]
      exact and_comm
    have hgnd : ∀ u : Task, u.blocked_by.Nodup →
        (unblockStep (getTask acc i).id now u).blocked_by.Nodup := by
      intro u hnd
      rw [unblockStep_blocked_by]
      exact hnd.erase _
    exact wf_two_removeB acc i j _ _ hi hj hfid hfP hfM hfnd hgid hgP hgM hgnd h

theorem removeBlockedByOne_wf (i : Nat) (now : Str) (acc : List Task) (pfx : Str)
    (hi : i < acc.length) (h : WF acc) :
    WF (removeBlockedByOne i now acc pfx).1 ∧
      (removeBlockedByOne i now acc pfx).1.length = acc.length := by
  rcases hm : firstMatchIdx pfx acc with _ | j
  · have heq : (removeBlockedByOne i now acc pfx).1 = acc := by
      unfold removeBlockedByOne
      rw [hm]
    rw [heq]
    exact ⟨h, rfl⟩
  · obtain ⟨hj, hjpre⟩ := firstMatchIdx_some pfx acc j hm
    rw [removeBlockedByOne_eq i now acc pfx j hm]
    have hfid : ∀ t : Task, (if (getTask acc j).id ∈ t.blocked_by then { t with blocked_by := t.blocked_by.erase (getTask acc j).id, status := if t.blocked_by.erase (getTask acc j).id = [] ∧ t.status = "blocked".data then "open".data else t.status } else t).id = t.id := by
      intro t
      by_cases hc : (getTask acc j).id ∈ t.blocked_by
      · rw [if_pos hc]
      · rw [if_neg hc]
    have hfP : ∀ t : Task, (if (getTask acc j).id ∈ t.blocked_by then { t with blocked_by := t.blocked_by.erase (getTask acc j).id, status := if t.blocked_by.erase (getTask acc j).id = [] ∧ t.status = "blocked".data then "open".data else t.status } else t).blocks = t.blocks := by
      intro t
      by_cases hc : (getTask acc j).id ∈ t.blocked_by
      · rw [if_pos hc]
      · rw [if_neg hc]
    have hfM : ∀ t : Task, t.blocked_by.Nodup → ∀ y, (y ∈ (if (getTask acc j).id ∈ t.blocked_by then { t with blocked_by := t.blocked_by.erase (getTask acc j).id, status := if t.blocked_by.erase (getTask acc j).id = [] ∧ t.status = "blocked".data then "open".data else t.status } else t).blocked_by ↔
        y ∈ t.blocked_by ∧ y ≠ (getTask acc j).id) := by
      intro t hnd y
      by_cases hc : (getTask acc j).id ∈ t.blocked_by
      · rw [if_pos hc]
        show y ∈ t.blocked_by.erase (getTask acc j).id ↔ _
        rw [hnd.mem_erase_iff]
        exact and_comm
      · rw [if_neg hc]
        constructor
        · intro hy
          exact ⟨hy, fun he => hc (he ▸ hy)⟩
        · exact And.left
    have hfnd : ∀ t : Task, t.blocked_by.Nodup → (if (getTask acc j).id ∈ t.blocked_by then { t with blocked_by := t.blocked_by.erase (getTask acc j).id, status := if t.blocked_by.erase (getTask acc j).id = [] ∧ t.status = "blocked".data then "open".data else t.status } else t).blocked_by.Nodup := by
      intro t hnd
      by_cases hc : (getTask acc j).id ∈ t.blocked_by
      · rw [if_pos hc]
        exact hnd.erase _
      · rw [if_neg hc]
        exact hnd
    have hgid : ∀ u : Task, (if (getTask acc i).id ∈ u.blocks then { u with blocks := u.blocks.erase (getTask acc i).id, updated_at := now } else u).id = u.id := by
      intro u
      by_cases hc : (getTask acc i).id ∈ u.blocks
      · rw [if_pos hc]
      · rw [if_neg hc]
    have hgP : ∀ u : Task, (if (getTask acc i).id ∈ u.blocks then { u with blocks := u.blocks.erase (getTask acc i).id, updated_at := now } else u).blocked_by = u.blocked_by := by
      intro u
      by_cases hc : (getTask acc i).id ∈ u.blocks
      · rw [if_pos hc]
      · rw [if_neg hc]
    have hgM : ∀ u : Task, u.blocks.Nodup → ∀ y, (y ∈ (if (getTask acc i).id ∈ u.blocks then { u with blocks := u.blocks.erase (getTask acc i).id, updated_at := now } else u).blocks ↔
        y ∈ u.blocks ∧ y ≠ (getTask acc i).id) := by
      intro u hnd y
      by_cases hc : (getTask acc i).id ∈ u.blocks
      · rw [if_pos hc]
        show y ∈ u.blocks.erase (getTask acc i).id ↔ _
        rw [hnd.mem_erase_iff]
        exact and_comm
      · rw [if_neg hc]
        constructor
        · intro hy
          exact ⟨hy, fun he => hc (he ▸ hy)⟩
        · exact And.left
    have hgnd : ∀ u : Task, u.blocks.Nodup → (if (getTask acc i).id ∈ u.blocks then { u with blocks := u.blocks.erase (getTask acc i).id, updated_at := now } else u).blocks.Nodup := by
      intro u hnd
      by_cases hc : (getTask acc i).id ∈ u.blocks
      · rw [if_pos hc]
        exact hnd.erase _
      · rw [if_neg hc]
        exact hnd
    exact wf_two_removeBB acc i j _ _ hi hj hfid hfP hfM hfnd hgid hgP hgM hgnd h

theorem applyEdgeCmd_wf (single : Nat → Str → List Task → Str → List Task × Bool)
    (hsingle : ∀ (i : Nat) (now2 : Str) (acc : List Task) (pfx : Str),
      i < acc.length → WF acc →
      WF (single i now2 acc pfx).1 ∧ (single i now2 acc pfx).1.length = acc.length)
    (p : Str) (pfxs : List Str) (now : Str) (ts : List Task) (h : WF ts) :
    WF (applyEdgeCmd single p pfxs now ts) := by
  rcases hidx : findTaskIdx p ts with _ | i
  · have heq : applyEdgeCmd single p pfxs now ts = ts := by
      unfold applyEdgeCmd
      rw [hidx]
    rw [heq]
    exact h
  · have hi := findTaskIdx_lt p ts i hidx
    have h0 := wf_modifyAt_neutral ts i (fun t => { t with updated_at := now })
      (fun t => rfl) (fun t => rfl) (fun t => rfl) h
    have hstep1 : ∀ (q : List Task × Bool) (p2 : Str),
        ((match single i now q.1 p2 with
          | (ts2, b2) => (ts2, q.2 || b2)) : List Task × Bool).1 =
          (single i now q.1 p2).1 := by
      intro q p2
      rcases single i now q.1 p2 with ⟨ts2, b2⟩
      rfl
    have hfold : ∀ (l : List Str) (q : List Task × Bool),
        i < q.1.length → WF q.1 →
        WF ((l.foldl (fun q2 p2 =>
            match single i now q2.1 p2 with
            | (ts2, b2) => (ts2, q2.2 || b2)) q).1) ∧
        ((l.foldl (fun q2 p2 =>
            match single i now q2.1 p2 with
            | (ts2, b2) => (ts2, q2.2 || b2)) q).1).length = q.1.length := by
      intro l
      induction l with
      | nil => exact fun q hq hw => ⟨hw, rfl⟩
      | cons p2 l ih =>
        intro q hq hw
        simp only [List.foldl_cons]
        obtain ⟨hw2, hlen2⟩ := hsingle i now q.1 p2 hq hw
        have h1 := hstep1 q p2
        have hq2 : i < ((match single i now q.1 p2 with
            | (ts2, b2) => (ts2, q.2 || b2)) : List Task × Bool).1.length := by
          rw [h1, hlen2]
          exact hq
        have hw2b : WF ((match single i now q.1 p2 with
            | (ts2, b2) => (ts2, q.2 || b2)) : List Task × Bool).1 := by
          rw [h1]
          exact hw2
        obtain ⟨ha, hb⟩ := ih _ hq2 hw2b
        refine ⟨ha, ?_⟩
        rw [hb, h1, hlen2]
    have hq0 : i < ((modifyAt ts i (fun t => { t with updated_at := now }), false) :
        List Task × Bool).1.length := by
      show i < (modifyAt ts i (fun t => { t with updated_at := now })).length
      rw [h0.2]
      exact hi
    have hf : WF ((foldPrefixes single i now
          (modifyAt ts i (fun t => { t with updated_at := now })) pfxs).1) ∧
        ((foldPrefixes single i now
          (modifyAt ts i (fun t => { t with updated_at := now })) pfxs).1).length =
          (modifyAt ts i (fun t => { t with updated_at := now })).length :=
      hfold pfxs (modifyAt ts i (fun t => { t with updated_at := now }), false) hq0 h0.1
    unfold applyEdgeCmd
    rw [hidx]
    show WF (match foldPrefixes single i now
        (modifyAt ts i (fun t => { t with updated_at := now })) pfxs with
      | (ts1, updated) => if updated then ts1 else ts)
    rcases hfp : foldPrefixes single i now
        (modifyAt ts i (fun t => { t with updated_at := now })) pfxs with ⟨ts1, updated⟩
    rw [hfp] at hf
    cases updated
    · exact h
    · exact hf.1

theorem cmd_delete_wf (p now : Str) (ts : List Task) (h : WF ts) :
    WF (cmd_delete p now ts) := by
  rcases hft : find_task p ts with tgt | ms | _
  · obtain ⟨hids, hnde, hsym⟩ := h
    have hres : cmd_delete p now ts = (ts.map (fun u => if u.id = tgt.id then u else unblockStep tgt.id now (if tgt.id ∈ u.blocks then { u with blocks := u.blocks.erase tgt.id, updated_at := now } else u))).filter (fun u => u.id ≠ tgt.id) := by
      unfold cmd_delete
      rw [hft]
    rw [hres]
    have hpid : ∀ u : Task, (if u.id = tgt.id then u else unblockStep tgt.id now (if tgt.id ∈ u.blocks then { u with blocks := u.blocks.erase tgt.id, updated_at := now } else u)).id = u.id := by
      intro u
      by_cases hc : u.id = tgt.id
      · rw [if_pos hc]
      · rw [if_neg hc, unblockStep_id]
        by_cases hb : tgt.id ∈ u.blocks
        · rw [if_pos hb]
        · rw [if_neg hb]
    have hbbpres : ∀ z : Task, (if tgt.id ∈ z.blocks then { z with blocks := z.blocks.erase tgt.id, updated_at := now } else z).blocked_by = z.blocked_by := by
      intro z
      by_cases hb : tgt.id ∈ z.blocks
      · rw [if_pos hb]
      · rw [if_neg hb]
    have hBl : ∀ z : Task, z.id ≠ tgt.id → z.blocks.Nodup → ∀ y,
        (y ∈ (if z.id = tgt.id then z else unblockStep tgt.id now (if tgt.id ∈ z.blocks then { z with blocks := z.blocks.erase tgt.id, updated_at := now } else z)).blocks ↔ y ∈ z.blocks ∧ y ≠ tgt.id) := by
      intro z hz hznd y
      rw [if_neg hz, unblockStep_blocks]
      by_cases hb : tgt.id ∈ z.blocks
      · rw [if_pos hb]
        show y ∈ z.blocks.erase tgt.id ↔ _
        rw [hznd.mem_erase_iff]
        exact and_comm
      · rw [if_neg hb]
        constructor
        · intro hy
          exact ⟨hy, fun he => hb (he ▸ hy)⟩
        · exact And.left
    have hBB : ∀ z : Task, z.id ≠ tgt.id → z.blocked_by.Nodup → ∀ y,
        (y ∈ (if z.id = tgt.id then z else unblockStep tgt.id now (if tgt.id ∈ z.blocks then { z with blocks := z.blocks.erase tgt.id, updated_at := now } else z)).blocked_by ↔ y ∈ z.blocked_by ∧ y ≠ tgt.id) := by
      intro z hz hznd y
      rw [if_neg hz, unblockStep_blocked_by, hbbpres z, hznd.mem_erase_iff]
      exact and_comm
    have hmem : ∀ v : Task, (v ∈ (ts.map (fun u => if u.id = tgt.id then u else unblockStep tgt.id now (if tgt.id ∈ u.blocks then { u with blocks := u.blocks.erase tgt.id, updated_at := now } else u))).filter (fun u => u.id ≠ tgt.id) ↔
        ∃ u, u ∈ ts ∧ u.id ≠ tgt.id ∧ v = (if u.id = tgt.id then u else unblockStep tgt.id now (if tgt.id ∈ u.blocks then { u with blocks := u.blocks.erase tgt.id, updated_at := now } else u))) := by
      intro v
      rw [List.mem_filter, List.mem_map]
      constructor
      · rintro ⟨⟨u, hu, hv⟩, hne⟩
        refine ⟨u, hu, ?_, hv.symm⟩
        have hne2 : v.id ≠ tgt.id := by simpa using hne
        rw [← hv, hpid u] at hne2
        exact hne2
      · rintro ⟨u, hu, hne, rfl⟩
        refine ⟨⟨u, hu, rfl⟩, ?_⟩
        simpa [hpid u] using hne
    refine ⟨?_, ?_, ?_⟩
    · have hmapid : (ts.map (fun u => if u.id = tgt.id then u else unblockStep tgt.id now (if tgt.id ∈ u.blocks then { u with blocks := u.blocks.erase tgt.id, updated_at := now } else u))).map Task.id = ts.map Task.id := by
        rw [List.map_map]
        exact List.map_congr_left (fun u _ => hpid u)
      have hnd2 : ((ts.map (fun u => if u.id = tgt.id then u else unblockStep tgt.id now (if tgt.id ∈ u.blocks then { u with blocks := u.blocks.erase tgt.id, updated_at := now } else u))).map Task.id).Nodup := by
        rw [hmapid]
        exact hids
      rw [NodupIds]
      exact hnd2.sublist (List.Sublist.map _ (List.filter_sublist _))
    · intro v hv
      obtain ⟨u, hu, hne, rfl⟩ := (hmem v).mp hv
      have hund := hnde u hu
      constructor
      · rw [if_neg hne, unblockStep_blocks]
        by_cases hb : tgt.id ∈ u.blocks
        · rw [if_pos hb]
          exact hund.1.erase _
        · rw [if_neg hb]
          exact hund.1
      · rw [if_neg hne, unblockStep_blocked_by, hbbpres u]
        exact hund.2.erase _
    · intro a ha b hb
      obtain ⟨u, hu, hneu, rfl⟩ := (hmem a).mp ha
      obtain ⟨w, hw, hnew, rfl⟩ := (hmem b).mp hb
      have hund := hnde u hu
      have hwnd := hnde w hw
      rw [hpid w, hpid u, hBl u hneu hund.1, hBB w hnew hwnd.2]
      constructor
      · rintro ⟨hy, h2⟩
        exact ⟨(hsym u hu w hw).mp hy, hneu⟩
      · rintro ⟨hy, h2⟩
        exact ⟨(hsym u hu w hw).mpr hy, hnew⟩
  · have heq : cmd_delete p now ts = ts := by
      unfold cmd_delete
      rw [hft]
    rw [heq]
    exact h
  · have heq : cmd_delete p now ts = ts := by
      unfold cmd_delete
      rw [hft]
    rw [heq]
    exact h

theorem applyEdgeOp_wf (now : Str) (ts : List Task) (op : EdgeOp) (h : WF ts) :
    WF (applyEdgeOp now ts op) := by
  cases op with
  | addBlocks p pfxs =>
    exact applyEdgeCmd_wf addBlocksOne addBlocksOne_wf p pfxs now ts h
  | addBlockedBy p pfxs =>
    exact applyEdgeCmd_wf addBlockedByOne addBlockedByOne_wf p pfxs now ts h
  | removeBlocks p pfxs =>
    exact applyEdgeCmd_wf removeBlocksOne removeBlocksOne_wf p pfxs now ts h
  | removeBlockedBy p pfxs =>
    exact applyEdgeCmd_wf removeBlockedByOne removeBlockedByOne_wf p pfxs now ts h
  | delete p =>
    exact cmd_delete_wf p now ts h

theorem runEdgeOps_wf (ops : List (EdgeOp × Str)) (ts : List Task) (h : WF ts) :
    WF (runEdgeOps ops ts) := by
  have hgen : ∀ (l : List (EdgeOp × Str)) (acc : List Task), WF acc →
      WF (l.foldl (fun acc2 op => applyEdgeOp op.2 acc2 op.1) acc) := by
    intro l
    induction l with
    | nil => exact fun acc hw => hw
    | cons op l ih =>
      intro acc hw
      simp only [List.foldl_cons]
      exact ih _ (applyEdgeOp_wf op.2 acc op.1 hw)
  exact hgen ops ts h

/-- C3 counterexample: with a duplicated entry in a `blocks` list the
biconditional of edge symmetry holds and yet one `--remove-blocks` command
breaks it: `list.remove` erases only one of the two copies while the mirror
side loses its single copy. -/
theorem C3_counterexample :
    EdgeSym [taskX, taskY] ∧
    ¬EdgeSym (runEdgeOps [(EdgeOp.removeBlocks ['x'] [['y']], ['t'])]
      [taskX, taskY]) := by decide

/-- C3 (corrected): edge symmetry alone is not preserved by the edge
commands (`C3_counterexample`); amended with the spec's other two section-3
invariants — unique ids and duplicate-free edge lists — the three together
are an invariant of every sequence of add-edge, remove-edge and delete-task
commands. -/
theorem C3_edge_symmetry (ops : List (EdgeOp × Str)) (ts : List Task)
    (h1 : NodupIds ts) (h2 : NodupEdges ts) (h3 : EdgeSym ts) :
    NodupIds (runEdgeOps ops ts) ∧ NodupEdges (runEdgeOps ops ts) ∧
      EdgeSym (runEdgeOps ops ts) :=
  runEdgeOps_wf ops ts ⟨h1, h2, h3⟩

theorem C3_edge_symmetry_witness :
    (NodupIds [taskA, taskB] ∧ NodupEdges [taskA, taskB] ∧
      EdgeSym [taskA, taskB]) ∧
    (NodupIds (runEdgeOps [(EdgeOp.removeBlocks ['a'] [['b']], ['t'])]
        [taskA, taskB]) ∧
      NodupEdges (runEdgeOps [(EdgeOp.removeBlocks ['a'] [['b']], ['t'])]
        [taskA, taskB]) ∧
      EdgeSym (runEdgeOps [(EdgeOp.removeBlocks ['a'] [['b']], ['t'])]
        [taskA, taskB])) :=
  ⟨⟨by decide, by decide, by decide⟩,
   C3_edge_symmetry [(EdgeOp.removeBlocks ['a'] [['b']], ['t'])] [taskA, taskB]
     (by decide) (by decide) (by decide)⟩

theorem addBlocksOne_applied (i : Nat) (now : Str) (acc : List Task)
    (pfx : Str) (j : Nat) (hi : i < acc.length)
    (hm : firstMatchIdx pfx acc = some j) :
    (getTask acc j).id ∈ (getTask (addBlocksOne i now acc pfx).1 i).blocks ∧
    (getTask acc i).id ∈
      (getTask (addBlocksOne i now acc pfx).1 j).blocked_by ∧
    (addBlocksOne i now acc pfx).2 = true := by
  obtain ⟨hj, hjpre⟩ := firstMatchIdx_some pfx acc j hm
  rw [addBlocksOne_eq i now acc pfx j hm]
  have hfM : ∀ t : Task, ∀ y,
      (y ∈ (if (getTask acc j).id ∈ t.blocks then t else { t with blocks := t.blocks ++ [(getTask acc j).id] }).blocks ↔
        y ∈ t.blocks ∨ y = (getTask acc j).id) := by
    intro t y
    by_cases hc : (getTask acc j).id ∈ t.blocks
    · rw [if_pos hc]
      constructor
      · exact Or.inl
      · rintro (hy | rfl)
        · exact hy
        · exact hc
    · rw [if_neg hc]
      show y ∈ t.blocks ++ [(getTask acc j).id] ↔ _
      rw [List.mem_append, List.mem_singleton]
  have hgP : ∀ u : Task,
      (if (getTask acc i).id ∈ u.blocked_by then u else { u with blocked_by := u.blocked_by ++ [(getTask acc i).id], updated_at := now, status := if u.status = "done".data ∨ u.status = "blocked".data then u.status else "blocked".data }).blocks = u.blocks := by
    intro u
    by_cases hc : (getTask acc i).id ∈ u.blocked_by
    · rw [if_pos hc]
    · rw [if_neg hc]
  have hgM : ∀ u : Task, ∀ y,
      (y ∈ (if (getTask acc i).id ∈ u.blocked_by then u else { u with blocked_by := u.blocked_by ++ [(getTask acc i).id], updated_at := now, status := if u.status = "done".data ∨ u.status = "blocked".data then u.status else "blocked".data }).blocked_by ↔
        y ∈ u.blocked_by ∨ y = (getTask acc i).id) := by
    intro u y
    by_cases hc : (getTask acc i).id ∈ u.blocked_by
    · rw [if_pos hc]
      constructor
      · exact Or.inl
      · rintro (hy | rfl)
        · exact hy
        · exact hc
    · rw [if_neg hc]
      show y ∈ u.blocked_by ++ [(getTask acc i).id] ↔ _
      rw [List.mem_append, List.mem_singleton]
  have hi1 : i < (modifyAt acc i (fun t => if (getTask acc j).id ∈ t.blocks then t else { t with blocks := t.blocks ++ [(getTask acc j).id] })).length := by
    rw [modifyAt_length]
    exact hi
  have hj1 : j < (modifyAt acc i (fun t => if (getTask acc j).id ∈ t.blocks then t else { t with blocks := t.blocks ++ [(getTask acc j).id] })).length := by
    rw [modifyAt_length]
    exact hj
  refine ⟨?_, ?_, rfl⟩
  · by_cases hij : i = j
    · subst hij
      rw [getTask_modifyAt_self _ i _ hi1, hgP,
        getTask_modifyAt_self acc i _ hi, hfM]
      exact Or.inr rfl
    · rw [getTask_modifyAt_ne _ j _ i hij, getTask_modifyAt_self acc i _ hi,
        hfM]
      exact Or.inr rfl
  · rw [getTask_modifyAt_self _ j _ hj1, hgM]
    exact Or.inr rfl

/-- C1 (corrected): the code has no cycle or self-loop check at all.  Far
from rejecting such an edge, `cmd_update --add-blocks` records every edge
whose prefix resolves, unconditionally: after the command the resolved
target's id is in the matched task's `blocks` and the matched task's id is
in the target's `blocked_by` — also when the reverse edge already exists
(a 2-cycle, see the witness) and when the edge is a self-loop
(`C1_counterexample`). -/
theorem C1_no_cycle_check (p pfx now : Str) (ts : List Task) (i j : Nat)
    (hfind : findTaskIdx p ts = some i)
    (hj : firstMatchIdx pfx
      (modifyAt ts i (fun t => { t with updated_at := now })) = some j) :
    (getTask ts j).id ∈
      (getTask (applyEdgeCmd addBlocksOne p [pfx] now ts) i).blocks ∧
    (getTask ts i).id ∈
      (getTask (applyEdgeCmd addBlocksOne p [pfx] now ts) j).blocked_by := by
  have hi := findTaskIdx_lt p ts i hfind
  have hiM : i < (modifyAt ts i (fun t => { t with updated_at := now })).length := by
    rw [modifyAt_length]
    exact hi
  obtain ⟨hmem1, hmem2, hflag⟩ := addBlocksOne_applied i now
    (modifyAt ts i (fun t => { t with updated_at := now })) pfx j hiM hj
  have happ : applyEdgeCmd addBlocksOne p [pfx] now ts =
      (addBlocksOne i now
        (modifyAt ts i (fun t => { t with updated_at := now })) pfx).1 := by
    unfold applyEdgeCmd
    rw [hfind]
    show (match foldPrefixes addBlocksOne i now
        (modifyAt ts i (fun t => { t with updated_at := now })) [pfx] with
      | (ts1, updated) => if updated then ts1 else ts) = _
    have hfp : foldPrefixes addBlocksOne i now
        (modifyAt ts i (fun t => { t with updated_at := now })) [pfx] =
        ((addBlocksOne i now
          (modifyAt ts i (fun t => { t with updated_at := now })) pfx).1,
         (addBlocksOne i now
          (modifyAt ts i (fun t => { t with updated_at := now })) pfx).2) := by
      unfold foldPrefixes
      rw [List.foldl_cons, List.foldl_nil]
      rcases hab : addBlocksOne i now
          (modifyAt ts i (fun t => { t with updated_at := now })) pfx with ⟨ts2, b2⟩
      rfl
    rw [hfp]
    show (if (addBlocksOne i now
        (modifyAt ts i (fun t => { t with updated_at := now })) pfx).2 = true
      then (addBlocksOne i now
        (modifyAt ts i (fun t => { t with updated_at := now })) pfx).1
      else ts) = _
    rw [if_pos hflag]
  rw [happ]
  have hidj : (getTask (modifyAt ts i (fun t => { t with updated_at := now })) j).id =
      (getTask ts j).id :=
    getTask_modifyAt_id ts i (fun t => { t with updated_at := now })
      (fun t => rfl) j
  have hidi : (getTask (modifyAt ts i (fun t => { t with updated_at := now })) i).id =
      (getTask ts i).id :=
    getTask_modifyAt_id ts i (fun t => { t with updated_at := now })
      (fun t => rfl) i
  rw [hidj] at hmem1
  rw [hidi] at hmem2
  exact ⟨hmem1, hmem2⟩

/-- C1 counterexample: `--add-blocks` applied to a one-task collection with
the task's own prefix: the spec says a self-loop is rejected and the
collection left unchanged, but the code records it — afterwards the task's
own id sits in its `blocks` (and its `blocked_by`). -/
theorem C1_counterexample :
    (getTask (applyEdgeCmd addBlocksOne ['a'] [['a']] ['t'] [mkTask ['a']]) 0).id ∈
      (getTask (applyEdgeCmd addBlocksOne ['a'] [['a']] ['t'] [mkTask ['a']]) 0).blocks ∧
    applyEdgeCmd addBlocksOne ['a'] [['a']] ['t'] [mkTask ['a']] ≠
      [mkTask ['a']] := by decide

theorem C1_no_cycle_check_witness :
    (getTask [taskC, taskD] 0).id ∈ (getTask [taskC, taskD] 1).blocks ∧
    ((getTask [taskC, taskD] 1).id ∈
      (getTask (applyEdgeCmd addBlocksOne ['a'] [['b']] ['t'] [taskC, taskD]) 0).blocks ∧
    (getTask [taskC, taskD] 0).id ∈
      (getTask (applyEdgeCmd addBlocksOne ['a'] [['b']] ['t'] [taskC, taskD]) 1).blocked_by) :=
  ⟨by decide,
   C1_no_cycle_check ['a'] ['b'] ['t'] [taskC, taskD] 0 1 (by decide) (by decide)⟩

end ReadyQ

